import Mathlib

/-! Lomuto quicksort of `output.cpp`

A shallow embedding of `partition` and `quick_sort` from
`src/source_to_source_compiler/Python_to_cpp/output.cpp`.

* `vector<int>` is a `List Int`; the elements are only compared and exchanged.
* The `int` indices `low`, `high`, `i`, `j`, `pi` are `Int`. Under `0 <= low <= high`
  the index expressions of `partition` (`low - 1`, `i + 1`, `j++`) stay between `-1`
  and `high`, and `pi - 1` in `quick_sort` is at least `-1`. The one index expression
  that can leave the range of the 32-bit `int` is `pi + 1` in `quick_sort`, when
  `partition` returns `pi = INT_MAX`: that signed overflow is undefined behaviour in
  C++, and here it ends the run with `Fault.overflow`.
* `arr[k]` with `k` outside `0 .. N-1` is undefined behaviour in C++; here every
  element access is checked and an access outside the vector ends the run with
  `Fault.outOfBounds`.
* `quick_sort` recurses without a syntactic bound, so the embedding carries a
  recursion budget; exhausting it gives `Fault.outOfFuel`.
* The argument `arr.size() - 1` of the call in `main` is computed in unsigned 64-bit
  arithmetic and converted to the 32-bit `int` parameter; `size_minus_one` and
  `to_int32` make both steps explicit, modulo `2^64` and `2^32`.
-/

namespace QuickSort

/-- The ways a run of the embedding can stop without a result. -/
inductive Fault where
  | outOfBounds : Fault
  | outOfFuel : Fault
  | overflow : Fault
  deriving DecidableEq, Repr

/-- The largest value of the 32-bit `int` of the index parameters. -/
def INT_MAX : Int := 2147483647

/-- Read `arr[k]`: the access of `operator[]` at an `int` index, checked. -/
def readAt (arr : List Int) (k : Int) : Except Fault Int :=
  if k < 0 then .error .outOfBounds
  else
    match arr[k.toNat]? with
    | some x => .ok x
    | none => .error .outOfBounds

/-- The call `swap(arr[a], arr[b])`: both references are taken, then the two
values are exchanged (`tmp = arr[a]; arr[a] = arr[b]; arr[b] = tmp`). -/
def swapAt (arr : List Int) (a b : Int) : Except Fault (List Int) :=
  match readAt arr a with
  | .error e => .error e
  | .ok x =>
    match readAt arr b with
    | .error e => .error e
    | .ok y => .ok ((arr.set a.toNat y).set b.toNat x)

/-- The loop `for (int j = low; j < high; j++) { if (arr[j] <= pivot) { i = i + 1;
swap(arr[i], arr[j]); } }` of `partition`, entered with `n` iterations left
(`n = high - j`); the state is the vector and the boundary index `i`. -/
def partition_loop (pivot : Int) : Nat → List Int → Int → Int → Except Fault (List Int × Int)
  | 0, arr, i, _ => .ok (arr, i)
  | n + 1, arr, i, j =>
    match readAt arr j with
    | .error e => .error e
    | .ok x =>
      if x ≤ pivot then
        match swapAt arr (i + 1) j with
        | .error e => .error e
        | .ok arr1 => partition_loop pivot n arr1 (i + 1) (j + 1)
      else partition_loop pivot n arr i (j + 1)

/-- The function `partition(arr, low, high)`: the result is the rearranged vector
together with the returned index `i + 1`. -/
def partition (arr : List Int) (low high : Int) : Except Fault (List Int × Int) :=
  match readAt arr high with
  | .error e => .error e
  | .ok pivot =>
    match partition_loop pivot (high - low).toNat arr (low - 1) low with
    | .error e => .error e
    | .ok (arr1, i) =>
      match swapAt arr1 (i + 1) high with
      | .error e => .error e
      | .ok arr2 => .ok (arr2, i + 1)

/-- The function `quick_sort(arr, low, high)` with a budget of nested activations. The
argument `pi + 1` of the second recursive call is an `int` addition: above `INT_MAX` it
is a signed overflow and the run stops with `Fault.overflow`. The argument `pi - 1` of
the first call is at least `-1`, since `partition` has accessed the vector at `pi`. -/
def quick_sort_fuel : Nat → List Int → Int → Int → Except Fault (List Int)
  | 0, _, _, _ => .error .outOfFuel
  | fuel + 1, arr, low, high =>
    if low < high then
      match partition arr low high with
      | .error e => .error e
      | .ok (arr1, pi) =>
        match quick_sort_fuel fuel arr1 low (pi - 1) with
        | .error e => .error e
        | .ok arr2 =>
          if pi + 1 ≤ INT_MAX then quick_sort_fuel fuel arr2 (pi + 1) high
          else .error .overflow
    else .ok arr

/-- The function `quick_sort(arr, low, high)`, run with one activation per position
of the range `[low, high]` plus one: by `quick_sort_fuel_mono` below no larger
budget changes the result. -/
def quick_sort (arr : List Int) (low high : Int) : Except Fault (List Int) :=
  quick_sort_fuel ((high + 1 - low).toNat + 1) arr low high

/-- The steps of a run of `quick_sort` that the range invariant is about: entering an
activation `quick_sort(arr, low, high)` and calling `partition(arr, low, high)`, each
with the vector as it is at that moment; and reaching the call
`quick_sort(arr, pi + 1, high)` with `pi + 1` above `INT_MAX`, recorded with the vector,
the mathematical value of `pi + 1` and `high`: the activation the program enters there
has no defined `low`. -/
inductive Event where
  | activation : List Int → Int → Int → Event
  | partitionCall : List Int → Int → Int → Event
  | overflowedCall : List Int → Int → Int → Event
  deriving DecidableEq, Repr

/-- The function `quick_sort_fuel`, also listing in execution order the activations
entered and the calls of `partition` made; a run that stops with a fault keeps the
events up to there. `quick_sort_log_result` below shows the result is that of
`quick_sort_fuel`. -/
def quick_sort_log : Nat → List Int → Int → Int → List Event × Except Fault (List Int)
  | 0, arr, low, high => ([.activation arr low high], .error .outOfFuel)
  | fuel + 1, arr, low, high =>
    if low < high then
      match partition arr low high with
      | .error e => ([.activation arr low high, .partitionCall arr low high], .error e)
      | .ok (arr1, pi) =>
        match quick_sort_log fuel arr1 low (pi - 1) with
        | (t1, .error e) =>
          (.activation arr low high :: .partitionCall arr low high :: t1, .error e)
        | (t1, .ok arr2) =>
          if pi + 1 ≤ INT_MAX then
            match quick_sort_log fuel arr2 (pi + 1) high with
            | (t2, r) =>
              (.activation arr low high :: .partitionCall arr low high :: (t1 ++ t2), r)
          else
            (.activation arr low high :: .partitionCall arr low high ::
              (t1 ++ [.overflowedCall arr2 (pi + 1) high]), .error .overflow)
    else ([.activation arr low high], .ok arr)

/-- The range invariant for a vector of length `N`: an activation has `0 ≤ low` and
`high < N`; a call of `partition` has `0 ≤ low < high < N` and returns without an
access outside the vector; a call reached with an overflowed `pi + 1` breaks it. -/
def EventOk (N : Nat) : Event → Prop
  | .activation a low high => a.length = N ∧ 0 ≤ low ∧ high < (N : Int)
  | .partitionCall a low high =>
    a.length = N ∧ 0 ≤ low ∧ low < high ∧ high < (N : Int) ∧
      ∃ r, partition a low high = .ok r
  | .overflowedCall _ _ _ => False

/-- The events of the run `quick_sort arr low high`. -/
def quick_sort_events (arr : List Int) (low high : Int) : List Event :=
  (quick_sort_log ((high + 1 - low).toNat + 1) arr low high).1

/-- The variant of `quick_sort_fuel` in which, after `partition` returns `pi`, the right
sub-range `[pi+1, high]` is sorted first and the left sub-range `[low, pi-1]` second;
`pi + 1` is the same `int` addition as in `quick_sort_fuel`. -/
def quick_sort_right_first_fuel : Nat → List Int → Int → Int → Except Fault (List Int)
  | 0, _, _, _ => .error .outOfFuel
  | fuel + 1, arr, low, high =>
    if low < high then
      match partition arr low high with
      | .error e => .error e
      | .ok (arr1, pi) =>
        if pi + 1 ≤ INT_MAX then
          match quick_sort_right_first_fuel fuel arr1 (pi + 1) high with
          | .error e => .error e
          | .ok arr2 => quick_sort_right_first_fuel fuel arr2 low (pi - 1)
        else .error .overflow
    else .ok arr

/-- The right-first variant of `quick_sort`, run with the budget of `quick_sort`. -/
def quick_sort_right_first (arr : List Int) (low high : Int) : Except Fault (List Int) :=
  quick_sort_right_first_fuel ((high + 1 - low).toNat + 1) arr low high

/-- The expression `arr.size() - 1` of `main` for a vector of `size` elements: `size()`
is an unsigned 64-bit `size_t`, the literal `1` is converted to it, and the difference
is taken modulo `2^64`. -/
def size_minus_one (size : Nat) : Nat :=
  (size % 2 ^ 64 + 2 ^ 64 - 1) % 2 ^ 64

/-- Conversion of an unsigned 64-bit value to the 32-bit `int` parameter `high`: the
value modulo `2^32`, read in two's complement. -/
def to_int32 (u : Nat) : Int :=
  if u % 2 ^ 32 < 2 ^ 31 then ((u % 2 ^ 32 : Nat) : Int)
  else ((u % 2 ^ 32 : Nat) : Int) - 2 ^ 32

/-- The argument `high` of the call `quick_sort(arr, 0, arr.size() - 1)` in `main`. -/
def main_high (arr : List Int) : Int :=
  to_int32 (size_minus_one arr.length)

/-- A vector of `2^31` zeros: the shortest vector that has the index `INT_MAX`. -/
def zeros_2_31 : List Int := List.replicate 2147483648 0

/-- The positions `low .. high` of `arr`, as a list. -/
def seg (arr : List Int) (low high : Int) : List Int :=
  (arr.drop low.toNat).take (high + 1 - low).toNat

/-- Every position `k` with `a ≤ k ≤ b` holds an element, and it satisfies `P`. -/
def AllIn (P : Int → Prop) (arr : List Int) (a b : Int) : Prop :=
  ∀ k : Nat, a ≤ (k : Int) → (k : Int) ≤ b → ∃ x, arr[k]? = some x ∧ P x

/-- The vector `out` agrees with `arr` at every position outside `low .. high`. -/
def SameOutside (arr out : List Int) (low high : Int) : Prop :=
  ∀ k : Nat, ((k : Int) < low ∨ high < (k : Int)) → out[k]? = arr[k]?

/-- Adjacent positions inside `low .. high` are in non-decreasing order. -/
def SortedIn (arr : List Int) (low high : Int) : Prop :=
  ∀ k : Nat, low ≤ (k : Int) → (k : Int) + 1 ≤ high →
    ∃ x y, arr[k]? = some x ∧ arr[k + 1]? = some y ∧ x ≤ y

/-! ## Element access and exchange -/

theorem readAt_eq_ok {arr : List Int} {k : Int} {x : Int} (h0 : 0 ≤ k)
    (hx : arr[k.toNat]? = some x) : readAt arr k = .ok x := by
  unfold readAt
  rw [if_neg (by omega), hx]

theorem getElem?_some_of_lt {arr : List Int} {k : Nat} (h : k < arr.length) :
    ∃ x, arr[k]? = some x :=
  ⟨arr[k], List.getElem?_eq_getElem h⟩

theorem lt_length_of_getElem? {arr : List Int} {k : Nat} {x : Int}
    (h : arr[k]? = some x) : k < arr.length := by
  by_contra hc
  rw [List.getElem?_eq_none (by omega)] at h
  cases h

theorem getElem?_swap {arr : List Int} {a b : Nat} {x y : Int}
    (hx : arr[a]? = some x) (hy : arr[b]? = some y) (k : Nat) :
    ((arr.set a y).set b x)[k]? =
      if k = b then some x else if k = a then some y else arr[k]? := by
  have ha := lt_length_of_getElem? hx
  have hb := lt_length_of_getElem? hy
  rw [List.getElem?_set, List.getElem?_set]
  by_cases h1 : b = k
  · subst h1
    simp [hb]
  · by_cases h2 : a = k
    · subst h2
      simp [h1, ha, Ne.symm h1]
    · simp [h1, h2, Ne.symm h1, Ne.symm h2]

theorem swap_perm {arr : List Int} {a b : Nat} {x y : Int}
    (hx : arr[a]? = some x) (hy : arr[b]? = some y) :
    ((arr.set a y).set b x).Perm arr := by
  have ha := lt_length_of_getElem? hx
  have hb := lt_length_of_getElem? hy
  have hxa : arr[a] = x := by
    rw [List.getElem?_eq_getElem ha] at hx
    exact Option.some.inj hx
  have hyb : arr[b] = y := by
    rw [List.getElem?_eq_getElem hb] at hy
    exact Option.some.inj hy
  rw [List.perm_iff_count]
  intro c
  have hb1 : b < (arr.set a y).length := by simpa using hb
  have hset : (arr.set a y)[b] = y := by
    rw [List.getElem_set]
    split
    · rfl
    · exact hyb
  rw [List.count_set _ _ _ _ hb1, List.count_set _ _ _ _ ha, hset, hxa]
  have h1 : (if (x == c) = true then 1 else 0) ≤ arr.count c := by
    split
    next h =>
      have hc : x = c := by simpa using h
      have hm : x ∈ arr := hxa ▸ List.getElem_mem ha
      have : 0 < arr.count c := List.count_pos_iff.mpr (hc ▸ hm)
      omega
    next => omega
  omega

theorem swapAt_eq_ok {arr : List Int} {a b : Int} {x y : Int} (ha : 0 ≤ a) (hb : 0 ≤ b)
    (hx : arr[a.toNat]? = some x) (hy : arr[b.toNat]? = some y) :
    swapAt arr a b = .ok ((arr.set a.toNat y).set b.toNat x) := by
  unfold swapAt
  rw [readAt_eq_ok ha hx, readAt_eq_ok hb hy]

/-! ## The scan of `partition` -/

/-- Invariant of the scan: with `i < j`, everything in `low .. i` at most the pivot and
everything in `i+1 .. j-1` above it, the remaining `n = high - j` iterations run without
fault, only exchange elements inside `i+1 .. high-1`, and establish the same two facts
for the final `i` and `j = high`. -/
theorem partition_loop_spec (pivot low high : Int) :
    ∀ (n : Nat) (arr : List Int) (i j : Int),
      0 ≤ low → low - 1 ≤ i → i < j → j + (n : Int) = high → high < (arr.length : Int) →
      AllIn (fun x => x ≤ pivot) arr low i → AllIn (fun x => pivot < x) arr (i + 1) (j - 1) →
      ∃ out i1, partition_loop pivot n arr i j = .ok (out, i1) ∧ i ≤ i1 ∧ i1 < high ∧
        out.Perm arr ∧ SameOutside arr out (i + 1) (high - 1) ∧
        AllIn (fun x => x ≤ pivot) out low i1 ∧
        AllIn (fun x => pivot < x) out (i1 + 1) (high - 1) := by
  intro n
  induction n with
  | zero =>
    intro arr i j h0 hi hij hj hN hle hgt
    refine ⟨arr, i, rfl, le_refl _, by omega, List.Perm.refl _, fun _ _ => rfl, hle, ?_⟩
    have : j = high := by omega
    subst this
    exact hgt
  | succ n ih =>
    intro arr i j h0 hi hij hj hN hle hgt
    have hj0 : 0 ≤ j := by omega
    have hjN : j.toNat < arr.length := by omega
    obtain ⟨xj, hxj⟩ := getElem?_some_of_lt hjN
    have ha0 : 0 ≤ i + 1 := by omega
    have haN : (i + 1).toNat < arr.length := by omega
    obtain ⟨xa, hxa⟩ := getElem?_some_of_lt haN
    unfold partition_loop
    rw [readAt_eq_ok hj0 hxj]
    by_cases hc : xj ≤ pivot
    · simp only [hc, if_true]
      rw [swapAt_eq_ok ha0 hj0 hxa hxj]
      simp only []
      have hget := getElem?_swap hxa hxj
      have hperm := swap_perm hxa hxj
      obtain ⟨out, i1, hrun, hi1, hi1h, hp, hframe, hle1, hgt1⟩ :=
        ih ((arr.set (i + 1).toNat xj).set j.toNat xa) (i + 1) (j + 1) h0 (by omega) (by omega)
          (by omega) (by simpa using hN)
          (by
            intro k hk1 hk2
            rw [hget k]
            by_cases hkj : k = j.toNat
            · rw [if_pos hkj]
              have hka : (i + 1).toNat = j.toNat := by omega
              rw [hka, hxj] at hxa
              cases hxa
              exact ⟨xj, rfl, hc⟩
            · rw [if_neg hkj]
              by_cases hka : k = (i + 1).toNat
              · rw [if_pos hka]
                exact ⟨xj, rfl, hc⟩
              · rw [if_neg hka]
                exact hle k hk1 (by omega))
          (by
            intro k hk1 hk2
            rw [hget k]
            by_cases hkj : k = j.toNat
            · rw [if_pos hkj]
              obtain ⟨y, hy, hyp⟩ := hgt (i + 1).toNat (by omega) (by omega)
              rw [hxa] at hy
              cases hy
              exact ⟨xa, rfl, hyp⟩
            · rw [if_neg hkj, if_neg (by omega)]
              exact hgt k (by omega) (by omega))
      refine ⟨out, i1, hrun, by omega, hi1h, hp.trans hperm, ?_, hle1, hgt1⟩
      intro k hk
      rw [hframe k (by omega), hget k, if_neg (by omega), if_neg (by omega)]
    · simp only [hc, if_false]
      obtain ⟨out, i1, hrun, hi1, hi1h, hp, hframe, hle1, hgt1⟩ :=
        ih arr i (j + 1) h0 hi (by omega) (by omega) hN hle
          (by
            intro k hk1 hk2
            by_cases hkj : k = j.toNat
            · subst hkj
              exact ⟨xj, hxj, by omega⟩
            · exact hgt k hk1 (by omega))
      exact ⟨out, i1, hrun, hi1, hi1h, hp, hframe, hle1, hgt1⟩

/-- What `partition` does on a non-empty range inside the vector: it returns without
fault, the returned index `p` lies in the range and holds the value that was at `high`,
the vector is a permutation that differs from the input only inside `low .. high`, the
elements before `p` in the range are at most the pivot and those after it are above it. -/
theorem partition_spec (arr : List Int) (low high : Int)
    (h0 : 0 ≤ low) (hlh : low ≤ high) (hN : high < (arr.length : Int)) :
    ∃ out p pivot, partition arr low high = .ok (out, p) ∧ low ≤ p ∧ p ≤ high ∧
      arr[high.toNat]? = some pivot ∧ out[p.toNat]? = some pivot ∧
      out.Perm arr ∧ SameOutside arr out low high ∧
      AllIn (fun x => x ≤ pivot) out low (p - 1) ∧
      AllIn (fun x => pivot < x) out (p + 1) high := by
  have hhN : high.toNat < arr.length := by omega
  obtain ⟨pivot, hpiv⟩ := getElem?_some_of_lt hhN
  obtain ⟨out1, i1, hrun, hi1, hi1h, hp, hframe, hle1, hgt1⟩ :=
    partition_loop_spec pivot low high (high - low).toNat arr (low - 1) low h0 (le_refl _)
      (by omega) (by omega) hN
      (by intro k hk1 hk2; omega) (by intro k hk1 hk2; omega)
  have hlen : out1.length = arr.length := hp.length_eq
  have hh1 : out1[high.toNat]? = some pivot := by
    rw [hframe high.toNat (by omega), hpiv]
  have hpN : (i1 + 1).toNat < out1.length := by omega
  obtain ⟨xp, hxp⟩ := getElem?_some_of_lt hpN
  have hget := getElem?_swap hxp hh1
  refine ⟨(out1.set (i1 + 1).toNat pivot).set high.toNat xp, i1 + 1, pivot, ?_, by omega,
    by omega, hpiv, ?_, (swap_perm hxp hh1).trans hp, ?_, ?_, ?_⟩
  · have h1 : readAt arr high = .ok pivot := readAt_eq_ok (by omega) hpiv
    have h2 := swapAt_eq_ok (by omega) (by omega) hxp hh1
    simp only [partition, h1, hrun, h2]
  · rw [hget]
    by_cases hk : (i1 + 1).toNat = high.toNat
    · rw [if_pos hk]
      rw [hk, hh1] at hxp
      exact hxp.symm
    · rw [if_neg hk, if_pos rfl]
  · intro k hk
    rw [hget k, if_neg (by omega), if_neg (by omega)]
    exact hframe k (by omega)
  · intro k hk1 hk2
    rw [hget k, if_neg (by omega), if_neg (by omega)]
    exact hle1 k hk1 (by omega)
  · intro k hk1 hk2
    rw [hget k]
    by_cases hkh : k = high.toNat
    · rw [if_pos hkh]
      obtain ⟨y, hy, hyp⟩ := hgt1 (i1 + 1).toNat (by omega) (by omega)
      rw [hxp] at hy
      cases hy
      exact ⟨xp, rfl, hyp⟩
    · rw [if_neg hkh, if_neg (by omega)]
      exact hgt1 k (by omega) (by omega)

/-! ## Ranges of a vector -/

theorem getElem?_seg (arr : List Int) (low high : Int) (n : Nat) :
    (seg arr low high)[n]? =
      if n < (high + 1 - low).toNat then arr[low.toNat + n]? else none := by
  unfold seg
  rw [List.getElem?_take, List.getElem?_drop]

theorem mem_seg_iff {arr : List Int} {low high : Int} (h0 : 0 ≤ low) (x : Int) :
    x ∈ seg arr low high ↔
      ∃ k : Nat, low ≤ (k : Int) ∧ (k : Int) ≤ high ∧ arr[k]? = some x := by
  rw [List.mem_iff_getElem?]
  constructor
  · rintro ⟨n, hn⟩
    rw [getElem?_seg] at hn
    by_cases hlt : n < (high + 1 - low).toNat
    · rw [if_pos hlt] at hn
      exact ⟨low.toNat + n, by omega, by omega, hn⟩
    · rw [if_neg hlt] at hn
      cases hn
  · rintro ⟨k, hk1, hk2, hk⟩
    refine ⟨k - low.toNat, ?_⟩
    rw [getElem?_seg, if_pos (by omega)]
    have : low.toNat + (k - low.toNat) = k := by omega
    rw [this]
    exact hk

/-- A permutation of the whole vector that leaves everything outside `low .. high`
in place permutes the range `low .. high` within itself. -/
theorem seg_perm {arr out : List Int} {low high : Int} (h0 : 0 ≤ low)
    (hp : out.Perm arr) (hf : SameOutside arr out low high) :
    (seg out low high).Perm (seg arr low high) := by
  have hsplit : ∀ l : List Int, l = l.take low.toNat ++
      (seg l low high ++ l.drop (low.toNat + (high + 1 - low).toNat)) := by
    intro l
    unfold seg
    rw [← List.drop_drop, List.take_append_drop, List.take_append_drop]
  have htake : out.take low.toNat = arr.take low.toNat := by
    apply List.ext_getElem?
    intro n
    rw [List.getElem?_take, List.getElem?_take]
    by_cases hn : n < low.toNat
    · rw [if_pos hn, if_pos hn]
      exact hf n (Or.inl (by omega))
    · rw [if_neg hn, if_neg hn]
  have hdrop : out.drop (low.toNat + (high + 1 - low).toNat) =
      arr.drop (low.toNat + (high + 1 - low).toNat) := by
    apply List.ext_getElem?
    intro n
    rw [List.getElem?_drop, List.getElem?_drop]
    exact hf _ (Or.inr (by omega))
  have h := hp
  rw [hsplit out, hsplit arr, htake, hdrop] at h
  exact (List.perm_append_right_iff _).mp ((List.perm_append_left_iff _).mp h)

/-- A property of all elements of a range survives a rearrangement of that range. -/
theorem AllIn_of_perm {P : Int → Prop} {arr out : List Int} {low high : Int}
    (h0 : 0 ≤ low) (hN : high < (arr.length : Int))
    (hp : out.Perm arr) (hf : SameOutside arr out low high)
    (h : AllIn P arr low high) : AllIn P out low high := by
  intro k hk1 hk2
  have hlen : out.length = arr.length := hp.length_eq
  obtain ⟨x, hx⟩ := getElem?_some_of_lt (show k < out.length by omega)
  refine ⟨x, hx, ?_⟩
  have hm : x ∈ seg out low high := (mem_seg_iff h0 x).mpr ⟨k, hk1, hk2, hx⟩
  obtain ⟨k1, h1, h2, h3⟩ := (mem_seg_iff h0 x).mp ((seg_perm h0 hp hf).mem_iff.mp hm)
  obtain ⟨y, hy, hPy⟩ := h k1 h1 h2
  rw [h3] at hy
  cases hy
  exact hPy

theorem AllIn_of_same {P : Int → Prop} {arr out : List Int} {a b : Int}
    (hs : ∀ k : Nat, a ≤ (k : Int) → (k : Int) ≤ b → out[k]? = arr[k]?)
    (h : AllIn P arr a b) : AllIn P out a b := by
  intro k hk1 hk2
  rw [hs k hk1 hk2]
  exact h k hk1 hk2

/-! ## The recursion of `quick_sort` -/

theorem succ_le_INT_MAX {p high : Int} (hp : p ≤ high) (hM : high < INT_MAX) :
    p + 1 ≤ INT_MAX := by
  unfold INT_MAX at *
  omega

theorem pred_lt_INT_MAX {p high : Int} (hp : p ≤ high) (hM : high < INT_MAX) :
    p - 1 < INT_MAX := by
  unfold INT_MAX at *
  omega

/-- With a budget above the size of the range, `quick_sort` on a range inside the
vector with `high < INT_MAX` returns without fault a permutation of the input that
differs from it only inside the range and is in non-decreasing order there. -/
theorem quick_sort_fuel_spec :
    ∀ (fuel : Nat) (arr : List Int) (low high : Int),
      0 ≤ low → high < (arr.length : Int) → high < INT_MAX →
      (high + 1 - low).toNat < fuel →
      ∃ out, quick_sort_fuel fuel arr low high = .ok out ∧ out.Perm arr ∧
        SameOutside arr out low high ∧ SortedIn out low high := by
  intro fuel
  induction fuel with
  | zero =>
    intro arr low high _ _ _ hf
    omega
  | succ fuel ih =>
    intro arr low high h0 hN hM hf
    unfold quick_sort_fuel
    by_cases hlt : low < high
    · rw [if_pos hlt]
      obtain ⟨out1, p, pivot, hrun, hp1, hp2, _, hpp, hperm1, hframe1, hle1, hgt1⟩ :=
        partition_spec arr low high h0 (le_of_lt hlt) hN
      have hlen1 : out1.length = arr.length := hperm1.length_eq
      have hpM : p + 1 ≤ INT_MAX := succ_le_INT_MAX hp2 hM
      obtain ⟨out2, hrun2, hperm2, hframe2, hsort2⟩ :=
        ih out1 low (p - 1) h0 (by omega) (pred_lt_INT_MAX hp2 hM) (by omega)
      have hlen2 : out2.length = out1.length := hperm2.length_eq
      obtain ⟨out3, hrun3, hperm3, hframe3, hsort3⟩ :=
        ih out2 (p + 1) high (by omega) (by omega) hM (by omega)
      refine ⟨out3, ?_, (hperm3.trans hperm2).trans hperm1, ?_, ?_⟩
      · simp only [hrun, hrun2, if_pos hpM, hrun3]
      · intro k hk
        rw [hframe3 k (by omega), hframe2 k (by omega), hframe1 k hk]
      · have hp3 : out3[p.toNat]? = some pivot := by
          rw [hframe3 p.toNat (by omega), hframe2 p.toNat (by omega), hpp]
        have hle3 : AllIn (fun x => x ≤ pivot) out3 low (p - 1) :=
          AllIn_of_same (fun k _ hk2 => hframe3 k (Or.inl (by omega)))
            (AllIn_of_perm h0 (by omega) hperm2 hframe2 hle1)
        have hgt3 : AllIn (fun x => pivot < x) out3 (p + 1) high :=
          AllIn_of_perm (by omega) (by omega) hperm3 hframe3
            (AllIn_of_same (fun k hk1 _ => hframe2 k (Or.inr (by omega))) hgt1)
        intro k hk1 hk2
        by_cases hc1 : (k : Int) + 1 < p
        · obtain ⟨x, y, hx, hy, hxy⟩ := hsort2 k hk1 (by omega)
          refine ⟨x, y, ?_, ?_, hxy⟩
          · rw [hframe3 k (Or.inl (by omega)), hx]
          · rw [hframe3 (k + 1) (Or.inl (by omega)), hy]
        · by_cases hc2 : (k : Int) + 1 = p
          · obtain ⟨x, hx, hxp⟩ := hle3 k hk1 (by omega)
            have hkp : k + 1 = p.toNat := by omega
            exact ⟨x, pivot, hx, by rw [hkp, hp3], hxp⟩
          · by_cases hc3 : (k : Int) = p
            · obtain ⟨y, hy, hyp⟩ := hgt3 (k + 1) (by omega) (by omega)
              have hkp : k = p.toNat := by omega
              exact ⟨pivot, y, by rw [hkp, hp3], hy, le_of_lt hyp⟩
            · exact hsort3 k (by omega) hk2
    · rw [if_neg hlt]
      refine ⟨arr, rfl, List.Perm.refl _, fun _ _ => rfl, ?_⟩
      intro k hk1 hk2
      omega

/-- A larger budget does not change a result. -/
theorem quick_sort_fuel_mono :
    ∀ (fuel : Nat) (arr out : List Int) (low high : Int),
      quick_sort_fuel fuel arr low high = .ok out →
      ∀ fuel1, fuel ≤ fuel1 → quick_sort_fuel fuel1 arr low high = .ok out := by
  intro fuel
  induction fuel with
  | zero =>
    intro arr out low high h
    simp [quick_sort_fuel] at h
  | succ fuel ih =>
    intro arr out low high h fuel1 hle
    obtain ⟨f1, rfl⟩ : ∃ f1, fuel1 = f1 + 1 := ⟨fuel1 - 1, by omega⟩
    unfold quick_sort_fuel at h ⊢
    by_cases hlt : low < high
    · rw [if_pos hlt] at h ⊢
      cases hpart : partition arr low high with
      | error e => rw [hpart] at h; cases h
      | ok r =>
        obtain ⟨arr1, p⟩ := r
        rw [hpart] at h
        simp only [] at h ⊢
        cases hleft : quick_sort_fuel fuel arr1 low (p - 1) with
        | error e => rw [hleft] at h; cases h
        | ok arr2 =>
          rw [hleft] at h
          simp only [] at h
          rw [ih arr1 arr2 low (p - 1) hleft f1 (by omega)]
          simp only []
          by_cases hpM : p + 1 ≤ INT_MAX
          · rw [if_pos hpM] at h ⊢
            exact ih arr2 out (p + 1) high h f1 (by omega)
          · rw [if_neg hpM] at h
            cases h
    · rw [if_neg hlt] at h ⊢
      exact h

/-! ## Ranges that are already in order -/

theorem swapAt_self {arr : List Int} {a : Int} {x : Int} (ha : 0 ≤ a)
    (hx : arr[a.toNat]? = some x) : swapAt arr a a = .ok arr := by
  rw [swapAt_eq_ok ha ha hx hx]
  congr 1
  apply List.ext_getElem?
  intro k
  rw [getElem?_swap hx hx k]
  by_cases hk : k = a.toNat
  · rw [if_pos hk, hk, hx]
  · rw [if_neg hk, if_neg hk]

/-- In a range in non-decreasing order every element is at most the last one. -/
theorem AllIn_le_last {arr : List Int} {low high : Int} {pivot : Int}
    (hs : SortedIn arr low high) (hpiv : arr[high.toNat]? = some pivot) :
    AllIn (fun x => x ≤ pivot) arr low (high - 1) := by
  have key : ∀ (d k : Nat), low ≤ (k : Int) → (k : Int) + 1 + (d : Int) = high →
      ∃ x, arr[k]? = some x ∧ x ≤ pivot := by
    intro d
    induction d with
    | zero =>
      intro k hk1 hk2
      obtain ⟨x, y, hx, hy, hxy⟩ := hs k hk1 (by omega)
      have hkh : k + 1 = high.toNat := by omega
      rw [hkh, hpiv] at hy
      cases hy
      exact ⟨x, hx, hxy⟩
    | succ d ih =>
      intro k hk1 hk2
      obtain ⟨x, y, hx, hy, hxy⟩ := hs k hk1 (by omega)
      obtain ⟨z, hz, hzp⟩ := ih (k + 1) (by omega) (by push_cast; omega)
      rw [hy] at hz
      cases hz
      exact ⟨x, hx, le_trans hxy hzp⟩
  intro k hk1 hk2
  exact key (high - 1 - (k : Int)).toNat k hk1 (by omega)

/-- When every element still to be scanned is at most the pivot and `i = j - 1`, each
iteration exchanges a position with itself: the scan leaves the vector as it is. -/
theorem partition_loop_all_le (pivot high : Int) :
    ∀ (n : Nat) (arr : List Int) (j : Int),
      0 ≤ j → j + (n : Int) = high → high < (arr.length : Int) →
      AllIn (fun x => x ≤ pivot) arr j (high - 1) →
      partition_loop pivot n arr (j - 1) j = .ok (arr, high - 1) := by
  intro n
  induction n with
  | zero =>
    intro arr j _ hj _ _
    have : j = high := by omega
    subst this
    rfl
  | succ n ih =>
    intro arr j hj0 hj hN hle
    obtain ⟨x, hx, hxp⟩ := hle j.toNat (by omega) (by omega)
    have hi : j - 1 + 1 = j := by omega
    unfold partition_loop
    rw [readAt_eq_ok hj0 hx]
    simp only [hxp, if_true, hi, swapAt_self hj0 hx]
    have h := ih arr (j + 1) (by omega) (by omega) hN
      (fun k hk1 hk2 => hle k (by omega) hk2)
    have hi1 : j + 1 - 1 = j := by omega
    rw [hi1] at h
    exact h

/-- The result of `partition` when nothing in `low .. high-1` is above `arr[high]`:
the returned index is `high` and the vector is unchanged. -/
theorem partition_all_le {arr : List Int} {low high : Int} {pivot : Int}
    (h0 : 0 ≤ low) (hlh : low ≤ high) (hN : high < (arr.length : Int))
    (hpiv : arr[high.toNat]? = some pivot)
    (hle : AllIn (fun x => x ≤ pivot) arr low (high - 1)) :
    partition arr low high = .ok (arr, high) := by
  have h1 : readAt arr high = .ok pivot := readAt_eq_ok (by omega) hpiv
  have h2 := partition_loop_all_le pivot high (high - low).toNat arr low h0 (by omega) hN hle
  have h3 : swapAt arr high high = .ok arr := swapAt_self (by omega) hpiv
  have h4 : high - 1 + 1 = high := by omega
  simp only [partition, h1, h2, h4, h3]

/-- The function `quick_sort` leaves a range that is already in non-decreasing order
exactly as it is. -/
theorem quick_sort_fuel_sorted :
    ∀ (fuel : Nat) (arr : List Int) (low high : Int),
      0 ≤ low → high < (arr.length : Int) → high < INT_MAX →
      (high + 1 - low).toNat < fuel →
      SortedIn arr low high → quick_sort_fuel fuel arr low high = .ok arr := by
  intro fuel
  induction fuel with
  | zero =>
    intro arr low high _ _ _ hf
    omega
  | succ fuel ih =>
    intro arr low high h0 hN hM hf hs
    unfold quick_sort_fuel
    by_cases hlt : low < high
    · rw [if_pos hlt]
      obtain ⟨pivot, hpiv⟩ := getElem?_some_of_lt (show high.toNat < arr.length by omega)
      rw [partition_all_le h0 (le_of_lt hlt) hN hpiv (AllIn_le_last hs hpiv)]
      simp only []
      rw [ih arr low (high - 1) h0 (by omega) (pred_lt_INT_MAX (le_refl _) hM) (by omega)
        (fun k hk1 hk2 => hs k hk1 (by omega))]
      simp only []
      rw [if_pos (succ_le_INT_MAX (le_refl _) hM)]
      exact ih arr (high + 1) high (by omega) hN hM (by omega) (fun k hk1 hk2 => by omega)
    · rw [if_neg hlt]

/-! ## The activations of a run -/

/-- The logged run computes what `quick_sort_fuel` computes. -/
theorem quick_sort_log_result :
    ∀ (fuel : Nat) (arr : List Int) (low high : Int),
      (quick_sort_log fuel arr low high).2 = quick_sort_fuel fuel arr low high := by
  intro fuel
  induction fuel with
  | zero =>
    intro arr low high
    rfl
  | succ fuel ih =>
    intro arr low high
    unfold quick_sort_log quick_sort_fuel
    by_cases hlt : low < high
    · rw [if_pos hlt, if_pos hlt]
      cases hpart : partition arr low high with
      | error e => rfl
      | ok r =>
        obtain ⟨arr1, p⟩ := r
        simp only []
        have h1 := ih arr1 low (p - 1)
        rcases hq1 : quick_sort_log fuel arr1 low (p - 1) with ⟨t1, r1⟩
        rw [hq1] at h1
        simp only [] at h1
        rw [← h1]
        cases r1 with
        | error e => rfl
        | ok arr2 =>
          simp only []
          by_cases hpM : p + 1 ≤ INT_MAX
          · rw [if_pos hpM, if_pos hpM]
            have h2 := ih arr2 (p + 1) high
            rcases hq2 : quick_sort_log fuel arr2 (p + 1) high with ⟨t2, r2⟩
            rw [hq2] at h2
            exact h2
          · rw [if_neg hpM, if_neg hpM]
    · rw [if_neg hlt, if_neg hlt]

/-- Every event of a run on a range inside the vector with `high < INT_MAX` satisfies
the range invariant. -/
theorem quick_sort_log_events :
    ∀ (fuel : Nat) (arr : List Int) (low high : Int),
      0 ≤ low → high < (arr.length : Int) → high < INT_MAX →
      (high + 1 - low).toNat < fuel →
      ∀ e ∈ (quick_sort_log fuel arr low high).1, EventOk arr.length e := by
  intro fuel
  induction fuel with
  | zero =>
    intro arr low high _ _ _ hf
    omega
  | succ fuel ih =>
    intro arr low high h0 hN hM hf
    have hact : EventOk arr.length (.activation arr low high) := ⟨rfl, h0, hN⟩
    unfold quick_sort_log
    by_cases hlt : low < high
    · rw [if_pos hlt]
      obtain ⟨out1, p, pivot, hrun, hp1, hp2, _, _, hperm1, _, _, _⟩ :=
        partition_spec arr low high h0 (le_of_lt hlt) hN
      have hcall : EventOk arr.length (.partitionCall arr low high) :=
        ⟨rfl, h0, hlt, hN, (out1, p), hrun⟩
      have hlen1 : out1.length = arr.length := hperm1.length_eq
      have hpM : p + 1 ≤ INT_MAX := succ_le_INT_MAX hp2 hM
      have hpM1 : p - 1 < INT_MAX := pred_lt_INT_MAX hp2 hM
      obtain ⟨out2, hrun2, hperm2, _, _⟩ :=
        quick_sort_fuel_spec fuel out1 low (p - 1) h0 (by omega) hpM1 (by omega)
      have hlen2 : out2.length = out1.length := hperm2.length_eq
      have ih1 := ih out1 low (p - 1) h0 (by omega) hpM1 (by omega)
      have ih2 := ih out2 (p + 1) high (by omega) (by omega) hM (by omega)
      have e1 := quick_sort_log_result fuel out1 low (p - 1)
      rw [hrun2] at e1
      rw [hrun]
      simp only []
      rcases hq1 : quick_sort_log fuel out1 low (p - 1) with ⟨t1, r1⟩
      rw [hq1] at e1 ih1
      simp only [] at e1 ih1
      subst e1
      simp only []
      rw [if_pos hpM]
      rcases hq2 : quick_sort_log fuel out2 (p + 1) high with ⟨t2, r2⟩
      rw [hq2] at ih2
      simp only [] at ih2 ⊢
      intro e he
      rcases List.mem_cons.mp he with rfl | he
      · exact hact
      · rcases List.mem_cons.mp he with rfl | he
        · exact hcall
        · rcases List.mem_append.mp he with he | he
          · rw [← hlen1]
            exact ih1 e he
          · rw [← hlen1, ← hlen2]
            exact ih2 e he
    · rw [if_neg hlt]
      intro e he
      rcases List.mem_cons.mp he with rfl | he
      · exact hact
      · cases he

/-- The run `quick_sort arr low high` on a range inside the vector with
`high < INT_MAX`: it returns without fault a permutation of the input that differs from
it only inside the range and is in non-decreasing order there. -/
theorem quick_sort_spec (arr : List Int) (low high : Int)
    (h0 : 0 ≤ low) (hN : high < (arr.length : Int)) (hM : high < INT_MAX) :
    ∃ out, quick_sort arr low high = .ok out ∧ out.Perm arr ∧
      SameOutside arr out low high ∧ SortedIn out low high :=
  quick_sort_fuel_spec _ arr low high h0 hN hM (Nat.lt_succ_self _)

/-! ## The shape of the left part -/

theorem seg_length {arr : List Int} {a b : Int} (ha : 0 ≤ a) (hb : b < (arr.length : Int)) :
    (seg arr a b).length = (b + 1 - a).toNat := by
  unfold seg
  rw [List.length_take, List.length_drop]
  omega

theorem seg_empty (arr : List Int) {a b : Int} (hab : b < a) : seg arr a b = [] := by
  unfold seg
  have : (b + 1 - a).toNat = 0 := by omega
  rw [this, List.take_zero]

theorem seg_congr {arr out : List Int} {a b : Int} (ha : 0 ≤ a)
    (h : ∀ k : Nat, a ≤ (k : Int) → (k : Int) ≤ b → out[k]? = arr[k]?) :
    seg out a b = seg arr a b := by
  apply List.ext_getElem?
  intro n
  rw [getElem?_seg, getElem?_seg]
  by_cases hn : n < (b + 1 - a).toNat
  · rw [if_pos hn, if_pos hn]
    exact h _ (by omega) (by omega)
  · rw [if_neg hn, if_neg hn]

theorem seg_cons {arr : List Int} {j b : Int} {x : Int} (hj : 0 ≤ j) (hjb : j ≤ b)
    (hx : arr[j.toNat]? = some x) : seg arr j b = x :: seg arr (j + 1) b := by
  apply List.ext_getElem?
  intro n
  rw [getElem?_seg]
  cases n with
  | zero =>
    rw [if_pos (by omega), List.getElem?_cons_zero]
    exact hx
  | succ n =>
    rw [List.getElem?_cons_succ, getElem?_seg]
    have hidx : j.toNat + (n + 1) = (j + 1).toNat + n := by omega
    by_cases hn : n < (b + 1 - (j + 1)).toNat
    · rw [if_pos hn, if_pos (by omega), hidx]
    · rw [if_neg hn, if_neg (by omega)]

theorem seg_snoc {arr : List Int} {a i : Int} {x : Int} (ha : 0 ≤ a) (hai : a ≤ i + 1)
    (hx : arr[(i + 1).toNat]? = some x) : seg arr a (i + 1) = seg arr a i ++ [x] := by
  have hlt := lt_length_of_getElem? hx
  apply List.ext_getElem?
  intro n
  rw [getElem?_seg, List.getElem?_append, seg_length ha (by omega), getElem?_seg]
  by_cases hn : n < (i + 1 - a).toNat
  · rw [if_pos hn, if_pos (by omega), if_pos hn]
  · rw [if_neg hn]
    by_cases hn1 : n = (i + 1 - a).toNat
    · have hidx : a.toNat + n = (i + 1).toNat := by omega
      have hz : n - (i + 1 - a).toNat = 0 := by omega
      rw [if_pos (by omega), hidx, hx, hz]
      rfl
    · rw [if_neg (by omega)]
      have hz : n - (i + 1 - a).toNat = (n - (i + 1 - a).toNat - 1) + 1 := by omega
      rw [hz, List.getElem?_cons_succ]
      rfl

/-- What the scan builds between `low` and the boundary index: the elements that were
there on entry, followed by the elements of the positions still to be scanned that are
at most the pivot, in their order. -/
theorem partition_loop_left (pivot low high : Int) :
    ∀ (n : Nat) (arr : List Int) (i j : Int) (out : List Int) (i1 : Int),
      0 ≤ low → low - 1 ≤ i → i < j → j + (n : Int) = high → high < (arr.length : Int) →
      partition_loop pivot n arr i j = .ok (out, i1) →
      seg out low i1 =
        seg arr low i ++ (seg arr j (high - 1)).filter (fun x => decide (x ≤ pivot)) := by
  intro n
  induction n with
  | zero =>
    intro arr i j out i1 _ _ _ hj _ hrun
    unfold partition_loop at hrun
    cases hrun
    rw [seg_empty arr (show high - 1 < j by omega)]
    simp
  | succ n ih =>
    intro arr i j out i1 h0 hi hij hj hN hrun
    have hj0 : 0 ≤ j := by omega
    obtain ⟨xj, hxj⟩ := getElem?_some_of_lt (show j.toNat < arr.length by omega)
    have ha0 : 0 ≤ i + 1 := by omega
    obtain ⟨xa, hxa⟩ := getElem?_some_of_lt (show (i + 1).toNat < arr.length by omega)
    rw [seg_cons hj0 (by omega) hxj]
    unfold partition_loop at hrun
    rw [readAt_eq_ok hj0 hxj] at hrun
    by_cases hc : xj ≤ pivot
    · simp only [hc, if_true] at hrun
      rw [swapAt_eq_ok ha0 hj0 hxa hxj] at hrun
      simp only [] at hrun
      have hget := getElem?_swap hxa hxj
      have h := ih _ (i + 1) (j + 1) out i1 h0 (by omega) (by omega) (by omega)
        (by simpa using hN) hrun
      have hnew : ((arr.set (i + 1).toNat xj).set j.toNat xa)[(i + 1).toNat]? = some xj := by
        rw [hget]
        by_cases hk : (i + 1).toNat = j.toNat
        · rw [if_pos hk]
          rw [hk, hxj] at hxa
          exact hxa.symm
        · rw [if_neg hk, if_pos rfl]
      have hleft : seg ((arr.set (i + 1).toNat xj).set j.toNat xa) low i = seg arr low i :=
        seg_congr h0 (fun k _ hk2 => by
          rw [hget k, if_neg (by omega), if_neg (by omega)])
      have hrest : seg ((arr.set (i + 1).toNat xj).set j.toNat xa) (j + 1) (high - 1) =
          seg arr (j + 1) (high - 1) :=
        seg_congr (by omega) (fun k hk1 _ => by
          rw [hget k, if_neg (by omega), if_neg (by omega)])
      rw [h, seg_snoc h0 (by omega) hnew, hleft, hrest, List.filter_cons_of_pos (by simpa using hc)]
      simp
    · simp only [hc, if_false] at hrun
      have h := ih arr i (j + 1) out i1 h0 hi (by omega) (by omega) hN hrun
      rw [h, List.filter_cons_of_neg (by simpa using hc)]

/-- The left part produced by `partition`: the positions `low .. p-1` of the result hold
the elements of `low .. high-1` of the input that are at most the pivot `arr[high]`, in
their original order. -/
theorem partition_left (arr : List Int) (low high : Int)
    (h0 : 0 ≤ low) (hlh : low ≤ high) (hN : high < (arr.length : Int)) :
    ∃ out p pivot, partition arr low high = .ok (out, p) ∧ low ≤ p ∧ p ≤ high ∧
      arr[high.toNat]? = some pivot ∧ out.length = arr.length ∧
      seg out low (p - 1) =
        (seg arr low (high - 1)).filter (fun x => decide (x ≤ pivot)) := by
  obtain ⟨pivot, hpiv⟩ := getElem?_some_of_lt (show high.toNat < arr.length by omega)
  obtain ⟨out1, i1, hrun, hi1, hi1h, hp, hframe, _, _⟩ :=
    partition_loop_spec pivot low high (high - low).toNat arr (low - 1) low h0 (le_refl _)
      (by omega) (by omega) hN
      (by intro k hk1 hk2; omega) (by intro k hk1 hk2; omega)
  have hlen : out1.length = arr.length := hp.length_eq
  have hh1 : out1[high.toNat]? = some pivot := by
    rw [hframe high.toNat (by omega), hpiv]
  obtain ⟨xp, hxp⟩ := getElem?_some_of_lt (show (i1 + 1).toNat < out1.length by omega)
  have hget := getElem?_swap hxp hh1
  have hshape := partition_loop_left pivot low high (high - low).toNat arr (low - 1) low
    out1 i1 h0 (le_refl _) (by omega) (by omega) hN hrun
  rw [seg_empty arr (show low - 1 < low by omega), List.nil_append] at hshape
  refine ⟨(out1.set (i1 + 1).toNat pivot).set high.toNat xp, i1 + 1, pivot, ?_, by omega,
    by omega, hpiv, by simpa using hlen, ?_⟩
  · have h1 : readAt arr high = .ok pivot := readAt_eq_ok (by omega) hpiv
    have h2 := swapAt_eq_ok (by omega) (by omega) hxp hh1
    simp only [partition, h1, hrun, h2]
  · have hidx : i1 + 1 - 1 = i1 := by omega
    rw [hidx, ← hshape]
    exact seg_congr h0 (fun k _ hk2 => by
      rw [hget k, if_neg (by omega), if_neg (by omega)])

/-! ## The order of the two recursive calls -/

theorem pairwise_seg_of_sortedIn {arr : List Int} {low high : Int} (h0 : 0 ≤ low)
    (hs : SortedIn arr low high) : (seg arr low high).Pairwise (fun x y => x ≤ y) := by
  rw [← List.chain'_iff_pairwise, List.chain'_iff_get]
  intro i hi
  have hlen : (seg arr low high).length ≤ (high + 1 - low).toNat := by
    unfold seg
    rw [List.length_take]
    exact Nat.min_le_left _ _
  obtain ⟨x, y, hx, hy, hxy⟩ := hs (low.toNat + i) (by omega) (by omega)
  have hx1 : (seg arr low high)[i]? = some x := by
    rw [getElem?_seg, if_pos (by omega)]
    exact hx
  have hy1 : (seg arr low high)[i + 1]? = some y := by
    rw [getElem?_seg, if_pos (by omega)]
    exact hy
  obtain ⟨_, hx2⟩ := List.getElem?_eq_some_iff.mp hx1
  obtain ⟨_, hy2⟩ := List.getElem?_eq_some_iff.mp hy1
  rw [List.get_eq_getElem, List.get_eq_getElem, hx2, hy2]
  exact hxy

/-- Two rearrangements of the range `low .. high` of the same vector that are both in
non-decreasing order there are the same vector. -/
theorem eq_of_sorted_rearrangements {arr a b : List Int} {low high : Int} (h0 : 0 ≤ low)
    (hpa : a.Perm arr) (hfa : SameOutside arr a low high) (hsa : SortedIn a low high)
    (hpb : b.Perm arr) (hfb : SameOutside arr b low high) (hsb : SortedIn b low high) :
    a = b := by
  have hseg : seg a low high = seg b low high :=
    List.Perm.eq_of_sorted (fun x y _ _ hxy hyx => le_antisymm hxy hyx)
      (pairwise_seg_of_sortedIn h0 hsa) (pairwise_seg_of_sortedIn h0 hsb)
      ((seg_perm h0 hpa hfa).trans (seg_perm h0 hpb hfb).symm)
  apply List.ext_getElem?
  intro k
  by_cases hk : (k : Int) < low ∨ high < (k : Int)
  · rw [hfa k hk, hfb k hk]
  · have h1 := getElem?_seg a low high (k - low.toNat)
    have h2 := getElem?_seg b low high (k - low.toNat)
    have hidx : low.toNat + (k - low.toNat) = k := by omega
    rw [if_pos (by omega), hidx] at h1 h2
    rw [← h1, ← h2, hseg]

/-- The right-first variant, with a budget above the size of the range and
`high < INT_MAX`, returns without fault a permutation of the input that differs from it only inside the range and is in
non-decreasing order there. -/
theorem quick_sort_right_first_fuel_spec :
    ∀ (fuel : Nat) (arr : List Int) (low high : Int),
      0 ≤ low → high < (arr.length : Int) → high < INT_MAX →
      (high + 1 - low).toNat < fuel →
      ∃ out, quick_sort_right_first_fuel fuel arr low high = .ok out ∧ out.Perm arr ∧
        SameOutside arr out low high ∧ SortedIn out low high := by
  intro fuel
  induction fuel with
  | zero =>
    intro arr low high _ _ _ hf
    omega
  | succ fuel ih =>
    intro arr low high h0 hN hM hf
    unfold quick_sort_right_first_fuel
    by_cases hlt : low < high
    · rw [if_pos hlt]
      obtain ⟨out1, p, pivot, hrun, hp1, hp2, _, hpp, hperm1, hframe1, hle1, hgt1⟩ :=
        partition_spec arr low high h0 (le_of_lt hlt) hN
      have hlen1 : out1.length = arr.length := hperm1.length_eq
      have hpM : p + 1 ≤ INT_MAX := succ_le_INT_MAX hp2 hM
      obtain ⟨out2, hrun2, hperm2, hframe2, hsort2⟩ :=
        ih out1 (p + 1) high (by omega) (by omega) hM (by omega)
      have hlen2 : out2.length = out1.length := hperm2.length_eq
      obtain ⟨out3, hrun3, hperm3, hframe3, hsort3⟩ :=
        ih out2 low (p - 1) h0 (by omega) (pred_lt_INT_MAX hp2 hM) (by omega)
      refine ⟨out3, ?_, (hperm3.trans hperm2).trans hperm1, ?_, ?_⟩
      · simp only [hrun, if_pos hpM, hrun2, hrun3]
      · intro k hk
        rw [hframe3 k (by omega), hframe2 k (by omega), hframe1 k hk]
      · have hp3 : out3[p.toNat]? = some pivot := by
          rw [hframe3 p.toNat (by omega), hframe2 p.toNat (by omega), hpp]
        have hle3 : AllIn (fun x => x ≤ pivot) out3 low (p - 1) :=
          AllIn_of_perm h0 (by omega) hperm3 hframe3
            (AllIn_of_same (fun k _ hk2 => hframe2 k (Or.inl (by omega))) hle1)
        have hgt3 : AllIn (fun x => pivot < x) out3 (p + 1) high :=
          AllIn_of_same (fun k hk1 _ => hframe3 k (Or.inr (by omega)))
            (AllIn_of_perm (by omega) (by omega) hperm2 hframe2 hgt1)
        intro k hk1 hk2
        by_cases hc1 : (k : Int) + 1 < p
        · exact hsort3 k hk1 (by omega)
        · by_cases hc2 : (k : Int) + 1 = p
          · obtain ⟨x, hx, hxp⟩ := hle3 k hk1 (by omega)
            have hkp : k + 1 = p.toNat := by omega
            exact ⟨x, pivot, hx, by rw [hkp, hp3], hxp⟩
          · by_cases hc3 : (k : Int) = p
            · obtain ⟨y, hy, hyp⟩ := hgt3 (k + 1) (by omega) (by omega)
              have hkp : k = p.toNat := by omega
              exact ⟨pivot, y, by rw [hkp, hp3], hy, le_of_lt hyp⟩
            · obtain ⟨x, y, hx, hy, hxy⟩ := hsort2 k (by omega) hk2
              refine ⟨x, y, ?_, ?_, hxy⟩
              · rw [hframe3 k (Or.inr (by omega)), hx]
              · rw [hframe3 (k + 1) (Or.inr (by omega)), hy]
    · rw [if_neg hlt]
      refine ⟨arr, rfl, List.Perm.refl _, fun _ _ => rfl, ?_⟩
      intro k hk1 hk2
      omega

/-! ## The overflow of `pi + 1` -/

/-- On a range in non-decreasing order that ends at `INT_MAX`, `partition` returns
`INT_MAX`, the left sub-range is sorted without a change, and the addition `pi + 1` for
the second recursive call overflows. -/
theorem quick_sort_fuel_overflow (fuel : Nat) (arr : List Int) (low high : Int)
    (h0 : 0 ≤ low) (hlt : low < high) (hM : high = INT_MAX)
    (hN : high < (arr.length : Int)) (hf : (high - low).toNat < fuel)
    (hs : SortedIn arr low high) :
    quick_sort_fuel (fuel + 1) arr low high = .error .overflow := by
  obtain ⟨pivot, hpiv⟩ := getElem?_some_of_lt (show high.toNat < arr.length by omega)
  unfold quick_sort_fuel
  rw [if_pos hlt, partition_all_le h0 (le_of_lt hlt) hN hpiv (AllIn_le_last hs hpiv)]
  simp only []
  rw [quick_sort_fuel_sorted fuel arr low (high - 1) h0 (by omega) (by omega) (by omega)
    (fun k hk1 hk2 => hs k hk1 (by omega))]
  simp only []
  rw [if_neg (by omega)]

/-- The logged run on such a range: it records the call reached with the overflowed
`pi + 1` and ends with the overflow. -/
theorem quick_sort_log_overflow (fuel : Nat) (arr : List Int) (low high : Int)
    (h0 : 0 ≤ low) (hlt : low < high) (hM : high = INT_MAX)
    (hN : high < (arr.length : Int)) (hf : (high - low).toNat < fuel)
    (hs : SortedIn arr low high) :
    Event.overflowedCall arr (high + 1) high ∈ (quick_sort_log (fuel + 1) arr low high).1 := by
  obtain ⟨pivot, hpiv⟩ := getElem?_some_of_lt (show high.toNat < arr.length by omega)
  have e1 := quick_sort_log_result fuel arr low (high - 1)
  rw [quick_sort_fuel_sorted fuel arr low (high - 1) h0 (by omega) (by omega) (by omega)
    (fun k hk1 hk2 => hs k hk1 (by omega))] at e1
  unfold quick_sort_log
  rw [if_pos hlt, partition_all_le h0 (le_of_lt hlt) hN hpiv (AllIn_le_last hs hpiv)]
  simp only []
  rcases hq1 : quick_sort_log fuel arr low (high - 1) with ⟨t1, r1⟩
  rw [hq1] at e1
  simp only [] at e1
  subst e1
  simp only []
  rw [if_neg (by omega)]
  simp

/-- The right-first variant on such a range: `pi + 1` overflows right after
`partition`. -/
theorem quick_sort_right_first_fuel_overflow (fuel : Nat) (arr : List Int) (low high : Int)
    (h0 : 0 ≤ low) (hlt : low < high) (hM : high = INT_MAX)
    (hN : high < (arr.length : Int)) (hs : SortedIn arr low high) :
    quick_sort_right_first_fuel (fuel + 1) arr low high = .error .overflow := by
  obtain ⟨pivot, hpiv⟩ := getElem?_some_of_lt (show high.toNat < arr.length by omega)
  unfold quick_sort_right_first_fuel
  rw [if_pos hlt, partition_all_le h0 (le_of_lt hlt) hN hpiv (AllIn_le_last hs hpiv)]
  simp only []
  rw [if_neg (by omega)]

theorem zeros_2_31_length : (zeros_2_31.length : Int) = INT_MAX + 1 := by
  unfold zeros_2_31 INT_MAX
  rw [List.length_replicate]
  rfl

theorem zeros_2_31_getElem? {k : Nat} (hk : (k : Int) ≤ INT_MAX) :
    zeros_2_31[k]? = some 0 := by
  unfold INT_MAX at hk
  unfold zeros_2_31
  rw [List.getElem?_replicate, if_pos (by omega)]

theorem zeros_2_31_sorted (low : Int) : SortedIn zeros_2_31 low INT_MAX := by
  intro k _ hk2
  exact ⟨0, 0, zeros_2_31_getElem? (by omega), zeros_2_31_getElem? hk2, le_refl _⟩

theorem INT_MAX_pos : 0 < INT_MAX := by
  unfold INT_MAX
  omega

/-- The run `quick_sort(arr, 0, INT_MAX)` on the vector of `2^31` zeros ends with the
overflow of `pi + 1`, for every budget above the size of the range. -/
theorem quick_sort_fuel_zeros (fuel : Nat) (hf : (INT_MAX - 0).toNat < fuel) :
    quick_sort_fuel (fuel + 1) zeros_2_31 0 INT_MAX = .error .overflow :=
  quick_sort_fuel_overflow fuel zeros_2_31 0 INT_MAX (le_refl _) INT_MAX_pos rfl
    (by rw [zeros_2_31_length]; omega) hf (zeros_2_31_sorted 0)

theorem quick_sort_zeros : quick_sort zeros_2_31 0 INT_MAX = .error .overflow := by
  have h := INT_MAX_pos
  exact quick_sort_fuel_zeros _ (by omega)

theorem quick_sort_events_eq (arr : List Int) (low high : Int) :
    quick_sort_events arr low high =
      (quick_sort_log ((high + 1 - low).toNat + 1) arr low high).1 := rfl

/-- The run `quick_sort(arr, 0, INT_MAX)` on the vector of `2^31` zeros reaches the
second recursive call with `pi + 1 = INT_MAX + 1`. -/
theorem quick_sort_events_zeros :
    Event.overflowedCall zeros_2_31 (INT_MAX + 1) INT_MAX ∈
      quick_sort_events zeros_2_31 0 INT_MAX := by
  have hpos := INT_MAX_pos
  rw [quick_sort_events_eq]
  exact quick_sort_log_overflow (INT_MAX + 1 - 0).toNat zeros_2_31 0 INT_MAX (le_refl _)
    hpos rfl (by rw [zeros_2_31_length]; omega) (by omega) (zeros_2_31_sorted 0)

theorem partition_zeros : partition zeros_2_31 0 INT_MAX = .ok (zeros_2_31, INT_MAX) :=
  partition_all_le (le_refl _) (le_of_lt INT_MAX_pos) (by rw [zeros_2_31_length]; omega)
    (zeros_2_31_getElem? (by have h := INT_MAX_pos; omega))
    (AllIn_le_last (zeros_2_31_sorted 0) (zeros_2_31_getElem? (by have h := INT_MAX_pos; omega)))

/-! ## The properties of the specification -/

/-- C1 (sortedness), amended. For a range with `0 ≤ low`, `high < N` and
`high < INT_MAX`, `quick_sort(arr, low, high)` returns, and in the resulting vector every
adjacent pair of positions `k`, `k+1` with `low ≤ k` and `k+1 ≤ high` satisfies
`arr[k] ≤ arr[k+1]`. -/
theorem quick_sort_sorted (arr : List Int) (low high : Int)
    (h0 : 0 ≤ low) (hN : high < (arr.length : Int)) (hM : high < INT_MAX) :
    ∃ out, quick_sort arr low high = .ok out ∧
      ∀ k : Nat, low ≤ (k : Int) → (k : Int) + 1 ≤ high →
        ∃ x y, out[k]? = some x ∧ out[k + 1]? = some y ∧ x ≤ y := by
  obtain ⟨out, hrun, _, _, hs⟩ := quick_sort_spec arr low high h0 hN hM
  exact ⟨out, hrun, hs⟩

theorem quick_sort_sorted_witness :
    (0 : Int) ≤ 0 ∧ (3 : Int) < (([4, 2, 9, 1] : List Int).length : Int) ∧
    (3 : Int) < INT_MAX ∧
    ∃ out, quick_sort [4, 2, 9, 1] 0 3 = .ok out ∧
      ∀ k : Nat, (0 : Int) ≤ (k : Int) → (k : Int) + 1 ≤ 3 →
        ∃ x y, out[k]? = some x ∧ out[k + 1]? = some y ∧ x ≤ y :=
  ⟨by decide, by decide, by decide,
    quick_sort_sorted [4, 2, 9, 1] 0 3 (by decide) (by decide) (by decide)⟩

/-- C1 as stated fails for the vector of `2^31` zeros and the range `(0, INT_MAX)`, which
has `0 ≤ low` and `high < N`: `partition` returns `INT_MAX`, the addition `pi + 1`
overflows, and the run has no resulting vector. -/
theorem quick_sort_sorted_counterexample :
    (0 : Int) ≤ 0 ∧ INT_MAX < (zeros_2_31.length : Int) ∧
    quick_sort zeros_2_31 0 INT_MAX = .error .overflow ∧
    ¬ ∃ out, quick_sort zeros_2_31 0 INT_MAX = .ok out ∧
      ∀ k : Nat, (0 : Int) ≤ (k : Int) → (k : Int) + 1 ≤ INT_MAX →
        ∃ x y, out[k]? = some x ∧ out[k + 1]? = some y ∧ x ≤ y := by
  refine ⟨le_refl _, by rw [zeros_2_31_length]; omega, quick_sort_zeros, ?_⟩
  rintro ⟨out, hrun, _⟩
  rw [quick_sort_zeros] at hrun
  cases hrun

/-- C2 (permutation invariant), amended. For a range with `0 ≤ low`, `high < N` and
`high < INT_MAX`, `quick_sort(arr, low, high)` returns a vector with the same multiset
of elements as the input and the same length. -/
theorem quick_sort_perm (arr : List Int) (low high : Int)
    (h0 : 0 ≤ low) (hN : high < (arr.length : Int)) (hM : high < INT_MAX) :
    ∃ out, quick_sort arr low high = .ok out ∧
      Multiset.ofList out = Multiset.ofList arr ∧ out.Perm arr ∧
      out.length = arr.length := by
  obtain ⟨out, hrun, hp, _, _⟩ := quick_sort_spec arr low high h0 hN hM
  exact ⟨out, hrun, Multiset.coe_eq_coe.mpr hp, hp, hp.length_eq⟩

theorem quick_sort_perm_witness :
    (0 : Int) ≤ 1 ∧ (3 : Int) < (([4, 2, 9, 2, 7] : List Int).length : Int) ∧
    (3 : Int) < INT_MAX ∧
    ∃ out, quick_sort [4, 2, 9, 2, 7] 1 3 = .ok out ∧
      Multiset.ofList out = Multiset.ofList [4, 2, 9, 2, 7] ∧
      out.Perm [4, 2, 9, 2, 7] ∧ out.length = ([4, 2, 9, 2, 7] : List Int).length :=
  ⟨by decide, by decide, by decide,
    quick_sort_perm [4, 2, 9, 2, 7] 1 3 (by decide) (by decide) (by decide)⟩

/-- C2 as stated fails for the vector of `2^31` zeros and the range `(0, INT_MAX)`: the
run ends with the overflow of `pi + 1`, so there is no vector after the call whose
multiset could be compared. -/
theorem quick_sort_perm_counterexample :
    (0 : Int) ≤ 0 ∧ INT_MAX < (zeros_2_31.length : Int) ∧
    quick_sort zeros_2_31 0 INT_MAX = .error .overflow ∧
    ¬ ∃ out, quick_sort zeros_2_31 0 INT_MAX = .ok out ∧
      Multiset.ofList out = Multiset.ofList zeros_2_31 ∧ out.Perm zeros_2_31 ∧
      out.length = zeros_2_31.length := by
  refine ⟨le_refl _, by rw [zeros_2_31_length]; omega, quick_sort_zeros, ?_⟩
  rintro ⟨out, hrun, _⟩
  rw [quick_sort_zeros] at hrun
  cases hrun

/-- C3 (the driver's scenario). The call of `main`, `quick_sort(arr, 0, 5)` on
`[10, 7, 8, 9, 1, 5]`, leaves the vector equal to `[1, 5, 7, 8, 9, 10]`. -/
theorem quick_sort_main_scenario :
    quick_sort [10, 7, 8, 9, 1, 5] 0 5 = .ok [1, 5, 7, 8, 9, 10] := by
  rfl

/-- C4 (partition invariant). For `0 ≤ low ≤ high < N`, `partition(seq, low, high)`
returns an index `p` of the range, and in the resulting vector every element at an
index in `[low, p-1]` is `≤ seq[p]` and every element at an index in `[p+1, high]` is
`≥ seq[p]`. -/
theorem partition_invariant (seq : List Int) (low high : Int)
    (h0 : 0 ≤ low) (hlh : low ≤ high) (hN : high < (seq.length : Int)) :
    ∃ out p v, partition seq low high = .ok (out, p) ∧ 0 ≤ p ∧ out[p.toNat]? = some v ∧
      (∀ k : Nat, low ≤ (k : Int) → (k : Int) ≤ p - 1 → ∃ x, out[k]? = some x ∧ x ≤ v) ∧
      (∀ k : Nat, p + 1 ≤ (k : Int) → (k : Int) ≤ high → ∃ x, out[k]? = some x ∧ v ≤ x) := by
  obtain ⟨out, p, v, hrun, hp1, _, _, hpp, _, _, hle, hgt⟩ :=
    partition_spec seq low high h0 hlh hN
  refine ⟨out, p, v, hrun, by omega, hpp, hle, ?_⟩
  intro k hk1 hk2
  obtain ⟨x, hx, hxv⟩ := hgt k hk1 hk2
  exact ⟨x, hx, le_of_lt hxv⟩

theorem partition_invariant_witness :
    (0 : Int) ≤ 1 ∧ (1 : Int) ≤ 4 ∧ (4 : Int) < (([0, 8, 3, 9, 5, 1] : List Int).length : Int) ∧
    ∃ out p v, partition [0, 8, 3, 9, 5, 1] 1 4 = .ok (out, p) ∧ 0 ≤ p ∧
      out[p.toNat]? = some v ∧
      (∀ k : Nat, (1 : Int) ≤ (k : Int) → (k : Int) ≤ p - 1 → ∃ x, out[k]? = some x ∧ x ≤ v) ∧
      (∀ k : Nat, p + 1 ≤ (k : Int) → (k : Int) ≤ 4 → ∃ x, out[k]? = some x ∧ v ≤ x) :=
  ⟨by decide, by decide, by decide,
    partition_invariant [0, 8, 3, 9, 5, 1] 1 4 (by decide) (by decide) (by decide)⟩

/-- C5 (pivot placement). For `0 ≤ low ≤ high < N`, `partition(arr, low, high)` returns
an index `p` with `low ≤ p ≤ high`, and the element at `p` of the resulting vector is
the element that was at `high` before the call. -/
theorem partition_pivot_placement (arr : List Int) (low high : Int)
    (h0 : 0 ≤ low) (hlh : low ≤ high) (hN : high < (arr.length : Int)) :
    ∃ out p pivot, partition arr low high = .ok (out, p) ∧ low ≤ p ∧ p ≤ high ∧
      arr[high.toNat]? = some pivot ∧ out[p.toNat]? = some pivot := by
  obtain ⟨out, p, pivot, hrun, hp1, hp2, hpiv, hpp, _⟩ :=
    partition_spec arr low high h0 hlh hN
  exact ⟨out, p, pivot, hrun, hp1, hp2, hpiv, hpp⟩

theorem partition_pivot_placement_witness :
    (0 : Int) ≤ 0 ∧ (0 : Int) ≤ 3 ∧ (3 : Int) < (([6, 2, 8, 4] : List Int).length : Int) ∧
    ∃ out p pivot, partition [6, 2, 8, 4] 0 3 = .ok (out, p) ∧ 0 ≤ p ∧ p ≤ 3 ∧
      ([6, 2, 8, 4] : List Int)[(3 : Int).toNat]? = some pivot ∧
      out[p.toNat]? = some pivot :=
  ⟨by decide, by decide, by decide,
    partition_pivot_placement [6, 2, 8, 4] 0 3 (by decide) (by decide) (by decide)⟩

/-- C6 (termination), amended. For a range with `0 ≤ low`, `high < N` and
`high < INT_MAX`, `quick_sort(arr, low, high)` returns: every budget of nested
activations above the size of the range gives the same result, never a fault. Whenever
`low < high` the index `p` returned by `partition` satisfies `low ≤ p ≤ high` and
`p + 1` is an `int`, so the ranges `[low, p-1]` and `[p+1, high]` of the two recursive
calls both hold fewer positions than `[low, high]`. -/
theorem quick_sort_terminates (arr : List Int) (low high : Int)
    (h0 : 0 ≤ low) (hN : high < (arr.length : Int)) (hM : high < INT_MAX) :
    (∃ out, quick_sort arr low high = .ok out ∧
      ∀ fuel, (high + 1 - low).toNat < fuel → quick_sort_fuel fuel arr low high = .ok out) ∧
    (low < high → ∃ out p, partition arr low high = .ok (out, p) ∧ low ≤ p ∧ p ≤ high ∧
      p + 1 ≤ INT_MAX ∧
      ((p - 1) + 1 - low).toNat < (high + 1 - low).toNat ∧
      (high + 1 - (p + 1)).toNat < (high + 1 - low).toNat) := by
  constructor
  · obtain ⟨out, hrun, _⟩ := quick_sort_spec arr low high h0 hN hM
    refine ⟨out, hrun, ?_⟩
    intro fuel hf
    exact quick_sort_fuel_mono _ arr out low high hrun fuel (by omega)
  · intro hlt
    obtain ⟨out, p, _, hrun, hp1, hp2, _⟩ :=
      partition_spec arr low high h0 (le_of_lt hlt) hN
    exact ⟨out, p, hrun, hp1, hp2, succ_le_INT_MAX hp2 hM, by omega, by omega⟩

theorem quick_sort_terminates_witness :
    (0 : Int) ≤ 0 ∧ (4 : Int) < (([3, 1, 4, 1, 5] : List Int).length : Int) ∧
    (4 : Int) < INT_MAX ∧
    ((∃ out, quick_sort [3, 1, 4, 1, 5] 0 4 = .ok out ∧
      ∀ fuel, ((4 : Int) + 1 - 0).toNat < fuel →
        quick_sort_fuel fuel [3, 1, 4, 1, 5] 0 4 = .ok out) ∧
    ((0 : Int) < 4 → ∃ out p, partition [3, 1, 4, 1, 5] 0 4 = .ok (out, p) ∧ 0 ≤ p ∧ p ≤ 4 ∧
      p + 1 ≤ INT_MAX ∧
      ((p - 1) + 1 - 0).toNat < ((4 : Int) + 1 - 0).toNat ∧
      ((4 : Int) + 1 - (p + 1)).toNat < ((4 : Int) + 1 - 0).toNat)) :=
  ⟨by decide, by decide, by decide,
    quick_sort_terminates [3, 1, 4, 1, 5] 0 4 (by decide) (by decide) (by decide)⟩

/-- C6 as stated fails for the vector of `2^31` zeros and the range `(0, INT_MAX)`:
`partition` returns `p = INT_MAX`, so `p + 1` is not an `int` and the second recursive
call has no range `[p+1, high]`; with every budget above the size of the range the run
ends with that overflow instead of returning. -/
theorem quick_sort_terminates_counterexample :
    (0 : Int) ≤ 0 ∧ INT_MAX < (zeros_2_31.length : Int) ∧
    partition zeros_2_31 0 INT_MAX = .ok (zeros_2_31, INT_MAX) ∧
    ¬ (INT_MAX + 1 ≤ INT_MAX) ∧
    (∀ fuel, (INT_MAX + 1 - 0).toNat < fuel →
      quick_sort_fuel fuel zeros_2_31 0 INT_MAX = .error .overflow) ∧
    ¬ ∃ out, quick_sort zeros_2_31 0 INT_MAX = .ok out ∧
      ∀ fuel, (INT_MAX + 1 - 0).toNat < fuel →
        quick_sort_fuel fuel zeros_2_31 0 INT_MAX = .ok out := by
  refine ⟨le_refl _, by rw [zeros_2_31_length]; omega, partition_zeros, by omega, ?_, ?_⟩
  · intro fuel hf
    have h := INT_MAX_pos
    obtain ⟨f, rfl⟩ : ∃ f, fuel = f + 1 := ⟨fuel - 1, by omega⟩
    exact quick_sort_fuel_zeros f (by omega)
  · rintro ⟨out, hrun, _⟩
    rw [quick_sort_zeros] at hrun
    cases hrun

/-- C7 (idempotence), amended. For a vector of length `N` with `1 ≤ N ≤ INT_MAX`: if
it is already in non-decreasing order, `quick_sort(arr, 0, N-1)` returns exactly the
same vector; and for any such vector, sorting the result of `quick_sort(arr, 0, N-1)`
again gives that result once more. -/
theorem quick_sort_idempotent (arr : List Int) (_hN : 1 ≤ arr.length)
    (hM : (arr.length : Int) ≤ INT_MAX) :
    ((∀ k : Nat, k + 1 < arr.length →
        ∃ x y, arr[k]? = some x ∧ arr[k + 1]? = some y ∧ x ≤ y) →
      quick_sort arr 0 ((arr.length : Int) - 1) = .ok arr) ∧
    (∃ out, quick_sort arr 0 ((arr.length : Int) - 1) = .ok out ∧
      out.length = arr.length ∧
      quick_sort out 0 ((out.length : Int) - 1) = .ok out) := by
  have hM1 : (arr.length : Int) - 1 < INT_MAX := by omega
  constructor
  · intro hs
    exact quick_sort_fuel_sorted _ arr 0 ((arr.length : Int) - 1) (le_refl _) (by omega) hM1
      (Nat.lt_succ_self _) (fun k _ hk2 => hs k (by omega))
  · obtain ⟨out, hrun, hp, _, hs⟩ :=
      quick_sort_spec arr 0 ((arr.length : Int) - 1) (le_refl _) (by omega) hM1
    have hlen : out.length = arr.length := hp.length_eq
    refine ⟨out, hrun, hlen, ?_⟩
    rw [hlen]
    exact quick_sort_fuel_sorted _ out 0 ((arr.length : Int) - 1) (le_refl _) (by omega) hM1
      (Nat.lt_succ_self _) hs

theorem quick_sort_idempotent_witness :
    1 ≤ ([1, 2, 2, 5] : List Int).length ∧
    ((([1, 2, 2, 5] : List Int).length : Int) ≤ INT_MAX) ∧
    quick_sort [1, 2, 2, 5] 0 ((([1, 2, 2, 5] : List Int).length : Int) - 1) =
      .ok [1, 2, 2, 5] ∧
    (∃ out, quick_sort [1, 2, 2, 5] 0 ((([1, 2, 2, 5] : List Int).length : Int) - 1) = .ok out ∧
      out.length = ([1, 2, 2, 5] : List Int).length ∧
      quick_sort out 0 ((out.length : Int) - 1) = .ok out) :=
  ⟨by decide, by decide,
    (quick_sort_idempotent [1, 2, 2, 5] (by decide) (by decide)).1 (by
      intro k hk
      have hk3 : k < 3 := Nat.lt_of_succ_lt_succ hk
      interval_cases k
      · exact ⟨1, 2, rfl, rfl, by decide⟩
      · exact ⟨2, 2, rfl, rfl, by decide⟩
      · exact ⟨2, 5, rfl, rfl, by decide⟩),
    (quick_sort_idempotent [1, 2, 2, 5] (by decide) (by decide)).2⟩

/-- C7 as stated fails for the vector of `2^31` zeros: its length is at least 1 and it
is in non-decreasing order, yet `quick_sort(arr, 0, N-1)` does not return it: the run
ends with the overflow of `pi + 1`. -/
theorem quick_sort_idempotent_counterexample :
    1 ≤ zeros_2_31.length ∧
    (∀ k : Nat, k + 1 < zeros_2_31.length →
      ∃ x y, zeros_2_31[k]? = some x ∧ zeros_2_31[k + 1]? = some y ∧ x ≤ y) ∧
    quick_sort zeros_2_31 0 ((zeros_2_31.length : Int) - 1) = .error .overflow ∧
    ¬ (quick_sort zeros_2_31 0 ((zeros_2_31.length : Int) - 1) = .ok zeros_2_31) := by
  have hlen := zeros_2_31_length
  have hpos := INT_MAX_pos
  have hhigh : (zeros_2_31.length : Int) - 1 = INT_MAX := by omega
  rw [hhigh]
  refine ⟨by omega, ?_, quick_sort_zeros, ?_⟩
  · intro k hk
    exact zeros_2_31_sorted 0 k (by omega) (by omega)
  · intro hrun
    rw [quick_sort_zeros] at hrun
    cases hrun

/-- C8 (terminal state). For every vector and every pair of indices with `low ≥ high`,
`quick_sort(arr, low, high)` returns the vector unchanged, and the only event of the run
is the activation itself: `partition` is not called. In particular `[1]` sorted with
`(0, 0)` stays `[1]` and `[]` sorted with `(0, -1)` stays `[]`. -/
theorem quick_sort_terminal (arr : List Int) (low high : Int) (h : high ≤ low) :
    quick_sort arr low high = .ok arr ∧
    quick_sort_events arr low high = [.activation arr low high] ∧
    (∀ fuel, quick_sort_fuel (fuel + 1) arr low high = .ok arr) ∧
    quick_sort [1] 0 0 = .ok [1] ∧ quick_sort [] 0 (-1) = .ok [] := by
  have hnlt : ¬ low < high := by omega
  refine ⟨?_, ?_, ?_, rfl, rfl⟩
  · unfold quick_sort quick_sort_fuel
    rw [if_neg hnlt]
  · unfold quick_sort_events quick_sort_log
    rw [if_neg hnlt]
  · intro fuel
    unfold quick_sort_fuel
    rw [if_neg hnlt]

theorem quick_sort_terminal_witness :
    ((-1 : Int) ≤ 0 ∧ quick_sort [] 0 (-1) = .ok [] ∧
      quick_sort_events [] 0 (-1) = [.activation [] 0 (-1)]) ∧
    ((2 : Int) ≤ 7 ∧ quick_sort [3, 1, 2] 7 2 = .ok [3, 1, 2]) :=
  ⟨⟨by decide, (quick_sort_terminal [] 0 (-1) (by decide)).1,
      (quick_sort_terminal [] 0 (-1) (by decide)).2.1⟩,
    ⟨by decide, (quick_sort_terminal [3, 1, 2] 7 2 (by decide)).1⟩⟩

/-- C9 (frame), amended. For `0 ≤ low` and `high < N`, `partition(arr, low, high)` (when
`low ≤ high`) and, when `high < INT_MAX`, `quick_sort(arr, low, high)` return a vector of
the same length in which every position `k < low` or `k > high` holds the same element
as before. -/
theorem partition_quick_sort_frame (arr : List Int) (low high : Int)
    (h0 : 0 ≤ low) (hN : high < (arr.length : Int)) :
    (low ≤ high → ∃ out p, partition arr low high = .ok (out, p) ∧
      out.length = arr.length ∧
      ∀ k : Nat, ((k : Int) < low ∨ high < (k : Int)) → out[k]? = arr[k]?) ∧
    (high < INT_MAX → ∃ out, quick_sort arr low high = .ok out ∧ out.length = arr.length ∧
      ∀ k : Nat, ((k : Int) < low ∨ high < (k : Int)) → out[k]? = arr[k]?) := by
  constructor
  · intro hlh
    obtain ⟨out, p, _, hrun, _, _, _, _, hp, hf, _⟩ := partition_spec arr low high h0 hlh hN
    exact ⟨out, p, hrun, hp.length_eq, hf⟩
  · intro hM
    obtain ⟨out, hrun, hp, hf, _⟩ := quick_sort_spec arr low high h0 hN hM
    exact ⟨out, hrun, hp.length_eq, hf⟩

theorem partition_quick_sort_frame_witness :
    (0 : Int) ≤ 1 ∧ (3 : Int) < (([9, 7, 5, 3, 1] : List Int).length : Int) ∧
    (∃ out p, partition [9, 7, 5, 3, 1] 1 3 = .ok (out, p) ∧
      out.length = ([9, 7, 5, 3, 1] : List Int).length ∧
      ∀ k : Nat, ((k : Int) < 1 ∨ (3 : Int) < (k : Int)) →
        out[k]? = ([9, 7, 5, 3, 1] : List Int)[k]?) ∧
    (∃ out, quick_sort [9, 7, 5, 3, 1] 1 3 = .ok out ∧
      out.length = ([9, 7, 5, 3, 1] : List Int).length ∧
      ∀ k : Nat, ((k : Int) < 1 ∨ (3 : Int) < (k : Int)) →
        out[k]? = ([9, 7, 5, 3, 1] : List Int)[k]?) :=
  ⟨by decide, by decide,
    (partition_quick_sort_frame [9, 7, 5, 3, 1] 1 3 (by decide) (by decide)).1 (by decide),
    (partition_quick_sort_frame [9, 7, 5, 3, 1] 1 3 (by decide) (by decide)).2 (by decide)⟩

/-- C9 as stated fails, in its `quick_sort` half, for the vector of `2^31` zeros and the
range `(0, INT_MAX)`: the run ends with the overflow of `pi + 1`, so there is no vector
after the call. -/
theorem partition_quick_sort_frame_counterexample :
    (0 : Int) ≤ 0 ∧ INT_MAX < (zeros_2_31.length : Int) ∧
    quick_sort zeros_2_31 0 INT_MAX = .error .overflow ∧
    ¬ ∃ out, quick_sort zeros_2_31 0 INT_MAX = .ok out ∧
      out.length = zeros_2_31.length ∧
      ∀ k : Nat, ((k : Int) < 0 ∨ INT_MAX < (k : Int)) → out[k]? = zeros_2_31[k]? := by
  refine ⟨le_refl _, by rw [zeros_2_31_length]; omega, quick_sort_zeros, ?_⟩
  rintro ⟨out, hrun, _⟩
  rw [quick_sort_zeros] at hrun
  cases hrun

/-- C10 (range invariant and index safety), amended. For a vector of length `N` with
`1 ≤ N ≤ INT_MAX`, every activation of the run `quick_sort(arr, 0, N-1)` has `0 ≤ low`
and `high < N`, every call of `partition` in it has `0 ≤ low < high < N` and returns
without an access outside the vector, no call is reached with an overflowed `pi + 1`,
and the run itself returns a result, not a fault. -/
theorem quick_sort_range_invariant (arr : List Int) (_hN : 1 ≤ arr.length)
    (hM : (arr.length : Int) ≤ INT_MAX) :
    (∀ e ∈ quick_sort_events arr 0 ((arr.length : Int) - 1),
      match e with
      | .activation a low high => a.length = arr.length ∧ 0 ≤ low ∧ high < (arr.length : Int)
      | .partitionCall a low high =>
        a.length = arr.length ∧ 0 ≤ low ∧ low < high ∧ high < (arr.length : Int) ∧
          ∃ r, partition a low high = .ok r
      | .overflowedCall _ _ _ => False) ∧
    (quick_sort_log (((arr.length : Int) - 1 + 1 - 0).toNat + 1) arr 0
      ((arr.length : Int) - 1)).2 = quick_sort arr 0 ((arr.length : Int) - 1) ∧
    (∃ out, quick_sort arr 0 ((arr.length : Int) - 1) = .ok out) := by
  have hM1 : (arr.length : Int) - 1 < INT_MAX := by omega
  refine ⟨?_, quick_sort_log_result _ _ _ _, ?_⟩
  · intro e he
    have h := quick_sort_log_events _ arr 0 ((arr.length : Int) - 1) (le_refl _) (by omega)
      hM1 (Nat.lt_succ_self _) e he
    cases e with
    | activation a low high => exact h
    | partitionCall a low high => exact h
    | overflowedCall a low high => exact h
  · obtain ⟨out, hrun, _⟩ :=
      quick_sort_spec arr 0 ((arr.length : Int) - 1) (le_refl _) (by omega) hM1
    exact ⟨out, hrun⟩

theorem quick_sort_range_invariant_witness :
    1 ≤ ([2, 3, 1] : List Int).length ∧
    ((([2, 3, 1] : List Int).length : Int) ≤ INT_MAX) ∧
    quick_sort_events [2, 3, 1] 0 2 =
      [.activation [2, 3, 1] 0 2, .partitionCall [2, 3, 1] 0 2,
       .activation [1, 3, 2] 0 (-1),
       .activation [1, 3, 2] 1 2, .partitionCall [1, 3, 2] 1 2,
       .activation [1, 2, 3] 1 0, .activation [1, 2, 3] 2 2] ∧
    (∀ e ∈ quick_sort_events [2, 3, 1] 0 ((([2, 3, 1] : List Int).length : Int) - 1),
      match e with
      | .activation a low high =>
        a.length = ([2, 3, 1] : List Int).length ∧ 0 ≤ low ∧
          high < (([2, 3, 1] : List Int).length : Int)
      | .partitionCall a low high =>
        a.length = ([2, 3, 1] : List Int).length ∧ 0 ≤ low ∧ low < high ∧
          high < (([2, 3, 1] : List Int).length : Int) ∧
          ∃ r, partition a low high = .ok r
      | .overflowedCall _ _ _ => False) :=
  ⟨by decide, by decide, by rfl,
    (quick_sort_range_invariant [2, 3, 1] (by decide) (by decide)).1⟩

/-- C10 as stated fails for the vector of `2^31` zeros, of length at least 1: the run
`quick_sort(arr, 0, N-1)` reaches the second recursive call with `pi + 1 = INT_MAX + 1`,
which is no `int`, so that activation has no `low` with `0 ≤ low`, and the run ends with
the overflow instead of a result. -/
theorem quick_sort_range_invariant_counterexample :
    1 ≤ zeros_2_31.length ∧
    Event.overflowedCall zeros_2_31 (INT_MAX + 1) INT_MAX ∈
      quick_sort_events zeros_2_31 0 ((zeros_2_31.length : Int) - 1) ∧
    ¬ EventOk zeros_2_31.length (Event.overflowedCall zeros_2_31 (INT_MAX + 1) INT_MAX) ∧
    quick_sort zeros_2_31 0 ((zeros_2_31.length : Int) - 1) = .error .overflow := by
  have hlen := zeros_2_31_length
  have hpos := INT_MAX_pos
  have hhigh : (zeros_2_31.length : Int) - 1 = INT_MAX := by omega
  rw [hhigh]
  exact ⟨by omega, quick_sort_events_zeros, fun h => h, quick_sort_zeros⟩

/-- C11 (reverse-sorted scenario). The call `quick_sort(arr, 0, 4)` on
`[5, 4, 3, 2, 1]` leaves the vector equal to `[1, 2, 3, 4, 5]`. -/
theorem quick_sort_reverse_scenario :
    quick_sort [5, 4, 3, 2, 1] 0 4 = .ok [1, 2, 3, 4, 5] := by
  rfl

/-- C12 (partition only exchanges). For `0 ≤ low ≤ high < N`, the vector produced by
`partition(arr, low, high)` is a permutation of `arr` (same multiset of elements, same
length), and the multiset of the elements at the positions `[low, high]` is the same
before and after the call. -/
theorem partition_perm (arr : List Int) (low high : Int)
    (h0 : 0 ≤ low) (hlh : low ≤ high) (hN : high < (arr.length : Int)) :
    ∃ out p, partition arr low high = .ok (out, p) ∧
      out.Perm arr ∧ Multiset.ofList out = Multiset.ofList arr ∧
      out.length = arr.length ∧
      Multiset.ofList ((out.drop low.toNat).take (high + 1 - low).toNat) =
        Multiset.ofList ((arr.drop low.toNat).take (high + 1 - low).toNat) := by
  obtain ⟨out, p, _, hrun, _, _, _, _, hp, hf, _⟩ := partition_spec arr low high h0 hlh hN
  exact ⟨out, p, hrun, hp, Multiset.coe_eq_coe.mpr hp, hp.length_eq,
    Multiset.coe_eq_coe.mpr (seg_perm h0 hp hf)⟩

theorem partition_perm_witness :
    (0 : Int) ≤ 1 ∧ (1 : Int) ≤ 3 ∧ (3 : Int) < (([7, 6, 2, 4, 0] : List Int).length : Int) ∧
    ∃ out p, partition [7, 6, 2, 4, 0] 1 3 = .ok (out, p) ∧
      out.Perm [7, 6, 2, 4, 0] ∧ Multiset.ofList out = Multiset.ofList [7, 6, 2, 4, 0] ∧
      out.length = ([7, 6, 2, 4, 0] : List Int).length ∧
      Multiset.ofList ((out.drop (1 : Int).toNat).take ((3 : Int) + 1 - 1).toNat) =
        Multiset.ofList
          ((([7, 6, 2, 4, 0] : List Int).drop (1 : Int).toNat).take ((3 : Int) + 1 - 1).toNat) :=
  ⟨by decide, by decide, by decide,
    partition_perm [7, 6, 2, 4, 0] 1 3 (by decide) (by decide) (by decide)⟩

/-- C14 (empty vector through the call of `main`). For the empty vector the expression
`arr.size() - 1` is `2^64 - 1` in unsigned 64-bit arithmetic, its conversion to the
32-bit `int` parameter is `-1`, so `quick_sort(arr, 0, high)` has `low ≥ high`: the run
consists of the one activation, calls `partition` not at all, and returns the empty
vector. -/
theorem main_empty_sequence :
    size_minus_one ([] : List Int).length = 2 ^ 64 - 1 ∧
    to_int32 (2 ^ 64 - 1) = -1 ∧
    main_high [] = -1 ∧
    ¬ ((0 : Int) < main_high []) ∧
    quick_sort [] 0 (main_high []) = .ok [] ∧
    quick_sort_events [] 0 (main_high []) = [.activation [] 0 (-1)] := by
  refine ⟨by decide, by decide, by decide, by decide, rfl, rfl⟩

/-- C15 (maximal skew). For `0 ≤ low ≤ high < N`: when every element at an index in
`[low, high-1]` is `≤ arr[high]`, `partition(arr, low, high)` returns `high` and leaves
the whole vector unchanged, so the right sub-range `[high+1, high]` is empty. This is the
case when the range is in non-decreasing order, when all its elements are equal, and
when `low = high`. -/
theorem partition_max_skew (arr : List Int) (low high : Int)
    (h0 : 0 ≤ low) (hlh : low ≤ high) (hN : high < (arr.length : Int)) :
    ((∀ k : Nat, low ≤ (k : Int) → (k : Int) ≤ high - 1 →
        ∃ x y, arr[k]? = some x ∧ arr[high.toNat]? = some y ∧ x ≤ y) →
      partition arr low high = .ok (arr, high)) ∧
    ((∀ k : Nat, low ≤ (k : Int) → (k : Int) + 1 ≤ high →
        ∃ x y, arr[k]? = some x ∧ arr[k + 1]? = some y ∧ x ≤ y) →
      partition arr low high = .ok (arr, high)) ∧
    ((∃ c, ∀ k : Nat, low ≤ (k : Int) → (k : Int) ≤ high → arr[k]? = some c) →
      partition arr low high = .ok (arr, high)) ∧
    (low = high → partition arr low high = .ok (arr, high)) := by
  obtain ⟨pivot, hpiv⟩ := getElem?_some_of_lt (show high.toNat < arr.length by omega)
  refine ⟨?_, ?_, ?_, ?_⟩
  · intro h
    apply partition_all_le h0 hlh hN hpiv
    intro k hk1 hk2
    obtain ⟨x, y, hx, hy, hxy⟩ := h k hk1 hk2
    rw [hpiv] at hy
    cases hy
    exact ⟨x, hx, hxy⟩
  · intro h
    exact partition_all_le h0 hlh hN hpiv (AllIn_le_last h hpiv)
  · rintro ⟨c, hc⟩
    apply partition_all_le h0 hlh hN hpiv
    intro k hk1 hk2
    have h1 := hc k hk1 (by omega)
    have h2 := hc high.toNat (by omega) (by omega)
    rw [hpiv] at h2
    cases h2
    exact ⟨pivot, h1, le_refl _⟩
  · intro h
    apply partition_all_le h0 hlh hN hpiv
    intro k hk1 hk2
    omega

theorem partition_max_skew_witness :
    (0 : Int) ≤ 1 ∧ (1 : Int) ≤ 3 ∧ (3 : Int) < (([9, 2, 1, 4, 0] : List Int).length : Int) ∧
    partition [9, 2, 1, 4, 0] 1 3 = .ok ([9, 2, 1, 4, 0], 3) :=
  ⟨by decide, by decide, by decide,
    (partition_max_skew [9, 2, 1, 4, 0] 1 3 (by decide) (by decide) (by decide)).1 (by
      intro k hk1 hk2
      have hk3 : k = 1 ∨ k = 2 := by omega
      rcases hk3 with rfl | rfl
      · exact ⟨2, 4, rfl, rfl, by decide⟩
      · exact ⟨1, 4, rfl, rfl, by decide⟩)⟩

/-- C17 (strict right part). For `0 ≤ low ≤ high < N`, if `partition(arr, low, high)`
returns `p` then every element of the resulting vector at an index in `[p+1, high]` is
strictly greater than the element at index `p`. -/
theorem partition_right_strict (arr : List Int) (low high : Int)
    (h0 : 0 ≤ low) (hlh : low ≤ high) (hN : high < (arr.length : Int)) :
    ∃ out p v, partition arr low high = .ok (out, p) ∧ 0 ≤ p ∧ out[p.toNat]? = some v ∧
      ∀ k : Nat, p + 1 ≤ (k : Int) → (k : Int) ≤ high → ∃ x, out[k]? = some x ∧ v < x := by
  obtain ⟨out, p, v, hrun, hp1, _, _, hpp, _, _, _, hgt⟩ :=
    partition_spec arr low high h0 hlh hN
  exact ⟨out, p, v, hrun, by omega, hpp, hgt⟩

theorem partition_right_strict_witness :
    (0 : Int) ≤ 0 ∧ (0 : Int) ≤ 4 ∧ (4 : Int) < (([3, 8, 3, 5, 3] : List Int).length : Int) ∧
    ∃ out p v, partition [3, 8, 3, 5, 3] 0 4 = .ok (out, p) ∧ 0 ≤ p ∧
      out[p.toNat]? = some v ∧
      ∀ k : Nat, p + 1 ≤ (k : Int) → (k : Int) ≤ 4 → ∃ x, out[k]? = some x ∧ v < x :=
  ⟨by decide, by decide, by decide,
    partition_right_strict [3, 8, 3, 5, 3] 0 4 (by decide) (by decide) (by decide)⟩

/-- C13 (order of the two sub-sorts), amended. For a range with `0 ≤ low`, `high < N`
and `high < INT_MAX`, the variant of `quick_sort` that sorts the right sub-range
`[pi+1, high]` first and the left sub-range `[low, pi-1]` second returns exactly the
vector that `quick_sort` (left first, then right) returns. -/
theorem quick_sort_right_first_eq (arr : List Int) (low high : Int)
    (h0 : 0 ≤ low) (hN : high < (arr.length : Int)) (hM : high < INT_MAX) :
    ∃ out, quick_sort arr low high = .ok out ∧
      quick_sort_right_first arr low high = .ok out := by
  obtain ⟨a, hruna, hpa, hfa, hsa⟩ := quick_sort_spec arr low high h0 hN hM
  obtain ⟨b, hrunb, hpb, hfb, hsb⟩ :=
    quick_sort_right_first_fuel_spec _ arr low high h0 hN hM (Nat.lt_succ_self _)
  have hab : a = b := eq_of_sorted_rearrangements h0 hpa hfa hsa hpb hfb hsb
  subst hab
  exact ⟨a, hruna, hrunb⟩

theorem quick_sort_right_first_eq_witness :
    (0 : Int) ≤ 0 ∧ (5 : Int) < (([10, 7, 8, 9, 1, 5] : List Int).length : Int) ∧
    (5 : Int) < INT_MAX ∧
    ∃ out, quick_sort [10, 7, 8, 9, 1, 5] 0 5 = .ok out ∧
      quick_sort_right_first [10, 7, 8, 9, 1, 5] 0 5 = .ok out :=
  ⟨by decide, by decide, by decide,
    quick_sort_right_first_eq [10, 7, 8, 9, 1, 5] 0 5 (by decide) (by decide) (by decide)⟩

/-- C13 as stated fails for the vector of `2^31` zeros and the range `(0, INT_MAX)`:
neither order of the sub-sorts produces a final vector, both runs end with the overflow
of `pi + 1`. -/
theorem quick_sort_right_first_eq_counterexample :
    (0 : Int) ≤ 0 ∧ INT_MAX < (zeros_2_31.length : Int) ∧
    quick_sort zeros_2_31 0 INT_MAX = .error .overflow ∧
    quick_sort_right_first zeros_2_31 0 INT_MAX = .error .overflow ∧
    ¬ ∃ out, quick_sort zeros_2_31 0 INT_MAX = .ok out ∧
      quick_sort_right_first zeros_2_31 0 INT_MAX = .ok out := by
  refine ⟨le_refl _, by rw [zeros_2_31_length]; omega, quick_sort_zeros, ?_, ?_⟩
  · exact quick_sort_right_first_fuel_overflow _ zeros_2_31 0 INT_MAX (le_refl _)
      INT_MAX_pos rfl (by rw [zeros_2_31_length]; omega) (zeros_2_31_sorted 0)
  · rintro ⟨out, hrun, _⟩
    rw [quick_sort_zeros] at hrun
    cases hrun

/-- C16 (exact shape of the left part). For `0 ≤ low ≤ high < N`, if
`partition(arr, low, high)` returns `p` then the positions `[low, p-1]` of the resulting
vector hold exactly the elements of the original `arr[low..high-1]` that are `≤` the
original `arr[high]`, in their original order; and `p - low` is their number. -/
theorem partition_left_shape (arr : List Int) (low high : Int)
    (h0 : 0 ≤ low) (hlh : low ≤ high) (hN : high < (arr.length : Int)) :
    ∃ out p pivot, partition arr low high = .ok (out, p) ∧
      arr[high.toNat]? = some pivot ∧
      seg out low (p - 1) = (seg arr low (high - 1)).filter (fun x => decide (x ≤ pivot)) ∧
      p - low = ((seg arr low (high - 1)).countP (fun x => decide (x ≤ pivot)) : Int) := by
  obtain ⟨out, p, pivot, hrun, hp1, hp2, hpiv, hlen, hshape⟩ :=
    partition_left arr low high h0 hlh hN
  refine ⟨out, p, pivot, hrun, hpiv, hshape, ?_⟩
  have hl := @seg_length out low (p - 1) h0 (by omega)
  rw [hshape] at hl
  rw [List.countP_eq_length_filter, hl]
  omega

theorem partition_left_shape_witness :
    (0 : Int) ≤ 1 ∧ (1 : Int) ≤ 5 ∧
    (5 : Int) < (([0, 9, 2, 7, 4, 4, 1] : List Int).length : Int) ∧
    ∃ out p pivot, partition [0, 9, 2, 7, 4, 4, 1] 1 5 = .ok (out, p) ∧
      ([0, 9, 2, 7, 4, 4, 1] : List Int)[(5 : Int).toNat]? = some pivot ∧
      seg out 1 (p - 1) =
        (seg [0, 9, 2, 7, 4, 4, 1] 1 (5 - 1)).filter (fun x => decide (x ≤ pivot)) ∧
      p - 1 =
        ((seg [0, 9, 2, 7, 4, 4, 1] 1 (5 - 1)).countP (fun x => decide (x ≤ pivot)) : Int) :=
  ⟨by decide, by decide, by decide,
    partition_left_shape [0, 9, 2, 7, 4, 4, 1] 1 5 (by decide) (by decide) (by decide)⟩

end QuickSort
